import Mathlib

/-!
# Verification of the godep dependency-graph analyzer

Shallow embedding of the core of `zosmac/godep` (Go): the recursive
string-keyed tree container (`utils.go`), the cross referencer
(`defs4refs`, `main.go`), the interface-satisfaction engine (`typesets`,
`main.go`), the versioned-path locator (`verspath`, `main.go`), the
signature formatter (`visitor.go`), and the graphviz node-graph builder
(`nodegraph.go`).

Go maps are embedded as association lists with unique keys; Go map
iteration (whose order is unspecified) becomes iteration in list order,
so list order is an explicit model of the runtime's choice of iteration
order.  Machine integers are `Nat` with explicit `% 2^64` where overflow
matters (the FNV-1 hash).  Fallible Go functions returning `(T, error)`
become `Option T`.
-/

namespace Godep

/-! ## The tree container (utils.go)

Go source: `type t[T ~string] map[T]t[T]; tree = t[string]`.
A tree is a map from string keys to child trees.  We embed the map as an
association list with unique keys; `set` overwrites the value of an
existing key in place and appends a new key at the end, matching Go map
assignment up to iteration order (which for Go is unspecified anyway and
is canonicalized by `sortkeys` before any observable traversal). -/

inductive Tree where
  | node : List (String × Tree) → Tree

abbrev tree := Tree

def Tree.children : Tree → List (String × Tree)
  | .node cs => cs

def Tree.empty : Tree := .node []

instance : Inhabited Tree := ⟨Tree.empty⟩

def Tree.keys (t : Tree) : List String := t.children.map Prod.fst

/-- Go `tr[k]` (comma-ok lookup). -/
def Tree.find? (t : Tree) (k : String) : Option Tree :=
  (t.children.find? (fun p => p.1 == k)).map Prod.snd

/-- Go `tr[k]` where a missing key reads as the empty map. -/
def Tree.findD (t : Tree) (k : String) : Tree := (t.find? k).getD Tree.empty

/-- Go `_, ok := tr[k]`. -/
def Tree.contains (t : Tree) (k : String) : Bool := (t.find? k).isSome

/-- Go `tr[k] = v`: overwrite if present, append if absent. -/
def Tree.set (t : Tree) (k : String) (v : Tree) : Tree :=
  .node (if t.contains k
         then t.children.map (fun p => if p.1 == k then (k, v) else p)
         else t.children ++ [(k, v)])

/-- Go `delete(tr, k)`. -/
def Tree.erase (t : Tree) (k : String) : Tree :=
  .node (t.children.filter (fun p => !(p.1 == k)))

/-- Go `len(tr)`. -/
def Tree.size (t : Tree) : Nat := t.children.length

/-- `add` (utils revision): `add(tree, nodes...)` inserts a path of keys,
creating intermediate nodes, no-op on an existing path. -/
def add (t : Tree) : List String → Tree
  | [] => t
  | k :: rest =>
      let child := if t.contains k then t.findD k else Tree.empty
      t.set k (add child rest)

/-! ### String comparison

Go compares strings byte-wise; on UTF-8 text byte order equals code
point order, so the Go `<` on strings is lexicographic comparison of
the character lists.  We define that comparison structurally (so the
kernel can evaluate it) together with the order lemmas the sorting
arguments need. -/

/-- Lexicographic comparison of character lists by code point: the Go
`<` on strings. -/
def charListLt : List Char → List Char → Bool
  | _, [] => false
  | [], _ :: _ => true
  | a :: as, b :: bs =>
      if a.toNat < b.toNat then true
      else if b.toNat < a.toNat then false
      else charListLt as bs

/-- Go `a < b` on strings. -/
def strLt (a b : String) : Bool := charListLt a.data b.data

/-- Go `a <= b` on strings, as the reflexive closure used for sorting. -/
def strLe (a b : String) : Prop := strLt b a = false

instance : DecidableRel strLe := fun _ _ => instDecidableEqBool _ _

/-! ### Canonical sort (`sortkeys`, utils.go lines 16-36)

`sort.Slice(keys, less)` with
`less i j := Trim(keys[i],"*()") < Trim(keys[j],"*()") ||
             (equal && keys[i] < keys[j])`.
The comparator is a strict total order on distinct strings, so the
sorted result is the unique sorted permutation whatever sorting
algorithm the runtime uses; we realize it with insertion sort. -/

/-- Characters trimmed by `strings.Trim(s, "*()")`. -/
def isMark (c : Char) : Bool := c = '*' || c = '(' || c = ')'

/-- `strings.Trim(s, "*()")`: strip leading and trailing marker chars. -/
def trimMarks (s : String) : String :=
  ⟨((s.data.dropWhile isMark).reverse.dropWhile isMark).reverse⟩

/-- The canonical ordering of `sortkeys`: compare trimmed keys, break
ties with the untrimmed originals.  This is the (non-strict) total order
whose strict part is the Go comparator. -/
def canonOrd (a b : String) : Prop :=
  strLt (trimMarks a) (trimMarks b) = true ∨ (trimMarks a = trimMarks b ∧ strLe a b)

instance : DecidableRel canonOrd := fun _ _ =>
  @instDecidableOr _ _ (instDecidableEqBool _ _)
    (@instDecidableAnd _ _ (String.decEq _ _) (instDecidableEqBool _ _))

/-- `sortkeys` (utils.go): the non-empty keys of one tree level in
canonical sort order. -/
def sortkeys (t : Tree) : List String :=
  List.insertionSort canonOrd (t.keys.filter (fun k => !(k == "")))

/-- `sortvals` (utils.go): subtrees in the order of their sorted keys. -/
def sortvals (t : Tree) : List Tree := (sortkeys t).map t.findD

/-! ## Slash paths

The program manipulates cleaned, absolute, slash-separated directory
paths (every path it handles is produced by `path.Join`/`filepath.Join`
or returned by the runtime already cleaned).  We model the standard
library's path helpers for exactly that class of paths. -/

/-- Split a character list at a separator character (the semantics of
`strings.Split`/`String.splitOn` with a one-character separator,
defined structurally so the kernel can evaluate it). -/
def splitChar (sep : Char) : List Char → List (List Char)
  | [] => [[]]
  | c :: cs =>
      if c = sep then [] :: splitChar sep cs
      else
        match splitChar sep cs with
        | [] => [[c]]
        | w :: ws => (c :: w) :: ws

/-- `strings.Split(s, "/")`. -/
def splitSlash (s : String) : List String := (splitChar '/' s.data).map String.mk

/-- Locate the first occurrence of `pat` in a character list, returning
the text before and after it (the search of `strings.Cut`). -/
def dropPat : List Char → List Char → Option (List Char)
  | [], s => some s
  | _ :: _, [] => none
  | p :: ps, c :: cs => if p = c then dropPat ps cs else none

def findCut (pat : List Char) : List Char → Option (List Char × List Char)
  | [] => (dropPat pat []).map (fun aft => ([], aft))
  | c :: cs =>
      match dropPat pat (c :: cs) with
      | some aft => some ([], aft)
      | none =>
          match findCut pat cs with
          | some (bef, aft) => some (c :: bef, aft)
          | none => none

/-- Segments of a cleaned path, dropping the empty piece produced by a
leading `/` and any `.` pieces (which `path.Clean` removes). -/
def segs (s : String) : List String :=
  (splitSlash s).filter (fun x => !(x == "") && !(x == "."))

def isAbs (s : String) : Bool :=
  match s.data with
  | '/' :: _ => true
  | _ => false

/-- `path.Dir` for cleaned paths. -/
def pathDir (s : String) : String :=
  let parts := splitSlash s
  let d := String.intercalate "/" parts.dropLast
  if d = "" then (if isAbs s then "/" else ".") else d

/-- `path.Base` for cleaned paths. -/
def pathBase (s : String) : String :=
  if s = "" then "."
  else if s = "/" then "/"
  else ((splitSlash s).getLast?).getD "."

/-- `path.Join` of two already-clean operands. -/
def pathJoin (a b : String) : String :=
  if a = "" then b else if b = "" then a else a ++ "/" ++ b

/-! ## `subdir` (utils.go lines 56-64)

`subdir(base, targ)` calls `filepath.Rel(base, targ)` and turns the
result into an error when it is a path that climbs out of `base`.
`filepath.Rel` is the Go standard library; we model it for cleaned
paths: mismatched rootedness fails, otherwise drop the common segment
prefix and prepend one `..` per remaining base segment. -/

/-- Strip the common prefix of two segment lists. -/
def dropCommon : List String → List String → List String × List String
  | a :: as, b :: bs => if a = b then dropCommon as bs else (a :: as, b :: bs)
  | as, bs => (as, bs)

/-- Model of `filepath.Rel(base, targ)` on cleaned paths. -/
def rel (base targ : String) : Option String :=
  if ¬ isAbs base = isAbs targ then none
  else
    let (bs, ts) := dropCommon (segs base) (segs targ)
    if bs.any (fun x => x == "..") then none
    else
      let out := List.replicate bs.length ".." ++ ts
      if out = [] then some "." else some (String.intercalate "/" out)

/-- `subdir(base, targ)`: the relative path, or `none` (the Go error)
when it cannot be computed or when it has length greater than one and
begins with `".."` (source: `len(rel) > 1 && rel[:2] == ".."`). -/
def subdir (base targ : String) : Option String :=
  match rel base targ with
  | none => none
  | some r => if r.length > 1 ∧ r.take 2 = ".." then none else some r

/-! ## The cross referencer (`defs4refs`, main.go lines 94-123)

`refs` maps a qualified symbol name to the tree of directories that
reference it; each referencing directory's subtree collects the resolved
definition/import directories.  `defs4refs` drops referencers outside
the module root, discards symbols with no remaining referencers, and
adds as targets either every definition directory of the symbol or, if
it has none, every import directory of the symbol's package prefix that
lies outside the module root. -/

/-- `strings.Cut(ref, ".")`: the part before the first `.` (the whole
string when there is no `.`). -/
def cutBeforeDot (s : String) : String := ⟨s.data.takeWhile (fun c => !(c == '.'))⟩

/-- A directory is treated as inside the module iff `subdir` succeeds. -/
def underMod (dirmod abs : String) : Bool := (subdir dirmod abs).isSome

/-- Add every directory of `targets` beneath every referencer of `abss`
(`abss[abs][t] = tree{}` for each `abs`, `t`). -/
def addTargets (abss : Tree) (targets : List String) : Tree :=
  .node (abss.children.map (fun p =>
    (p.1, targets.foldl (fun t d => t.set d Tree.empty) p.2)))

/-- Process one `refs` entry of `defs4refs`; `none` means the entry is
deleted. -/
def resolveRef (dirmod : String) (defs imps : Tree) (ref : String) (abss : Tree) :
    Option Tree :=
  let kept := Tree.node (abss.children.filter (fun p => underMod dirmod p.1))
  if kept.size = 0 then none
  else if defs.contains ref then
    some (addTargets kept (defs.findD ref).keys)
  else
    let pkg := cutBeforeDot ref
    let is := (imps.findD pkg).keys.filter (fun i => !(underMod dirmod i))
    some (addTargets kept is)

/-- `defs4refs`: rewrite the whole references tree. -/
def defs4refs (dirmod : String) (defs imps refs : Tree) : Tree :=
  .node (refs.children.filterMap (fun p =>
    (resolveRef dirmod defs imps p.1 p.2).map (fun t => (p.1, t))))

/-! ## The interface-satisfaction engine (`typesets`, main.go lines 126-155)

Pass 1 expands embedded interfaces: a member with no `(` is an embedded
interface name; it is deleted and replaced with the members currently
recorded under that name.  Go ranges over the live member map while
mutating it; entries inserted during the range may or may not be
visited (Go leaves this unspecified) — we iterate the member list as it
stood when the interface's turn began, which is one of the behaviours
Go permits.  Pass 2 records a type under an interface when the counting
loop finds every member of the interface among the type's descriptors. -/

/-- Expand one interface in place within the interfaces tree. -/
def expandStep (st : Tree) (ifc : String) : Tree :=
  ((st.findD ifc).keys).foldl (fun st mth =>
    if mth.data.contains '(' then st
    else
      let st' := st.set ifc ((st.findD ifc).erase mth)
      ((st'.findD mth).keys).foldl
        (fun st m => st.set ifc ((st.findD ifc).set m Tree.empty)) st') st

/-- Pass 1 of `typesets`: expand every interface, in iteration order. -/
def expandIfcs (ifcs : Tree) : Tree := ifcs.keys.foldl expandStep ifcs

/-- The counting loop of pass 2: how many members are examined before
the first one missing from `flds` (each present member counts one; the
loop breaks at the first absent member). -/
def countPresent (flds : Tree) : List String → Nat
  | [] => 0
  | m :: rest => if flds.contains m then countPresent flds rest + 1 else 0

/-- Pass 2 of `typesets`: record `typ` under `ifc` in the implements
tree whenever the count reaches the full member count. -/
def satisfy (typs ifcs sets : Tree) : Tree :=
  typs.children.foldl (fun sets tp =>
    ifcs.children.foldl (fun sets ip =>
      if countPresent tp.2 ip.2.keys = ip.2.size then add sets [ip.1, tp.1]
      else sets) sets) sets

/-- `typesets`: both passes; returns the expanded interfaces tree and
the implements (`sets`) tree, which starts empty in the program. -/
def typesets (typs ifcs : Tree) : Tree × Tree :=
  let ifcs' := expandIfcs ifcs
  (ifcs', satisfy typs ifcs' Tree.empty)

/-! ## Signature formatting (`signature`, visitor.go lines 452-482)

The AST lives outside this repository; a parameter or result field is
embedded as its rendered type text (`types.ExprString(tp.Type)`) plus
its declared names, which is all `signature` consumes. -/

structure Field where
  names : List String
  typ : String

structure FuncType where
  params : List Field
  results : Option (List Field)

/-- The loop body shared by both field lists: each field contributes its
type text once, plus once more for every name beyond the first. -/
def fieldTypes (fs : List Field) : List String :=
  fs.foldl (fun tps f => (tps ++ [f.typ]) ++ List.replicate (f.names.length - 1) f.typ) []

/-- `signature` (visitor.go): parameter list in parentheses, then the
result types: nothing (`tps == nil`), one bare type (`len(tps) == 1`),
or a parenthesized list. -/
def signature (fnc : FuncType) : String :=
  let sgn := "(" ++ String.intercalate ", " (fieldTypes fnc.params) ++ ")"
  match fnc.results with
  | none => sgn
  | some rs =>
      match fieldTypes rs with
      | [] => sgn
      | [r] => sgn ++ " " ++ r
      | tps => sgn ++ " (" ++ String.intercalate ", " tps ++ ")"

/-- `typelist` (visitor.go second revision, lines 915-929): the
comma-joined type texts of a field list, empty for a `nil` list; the
per-field name loop is the same as `signature`'s. -/
def typelist (flds : Option (List Field)) : String :=
  match flds with
  | none => ""
  | some l => String.intercalate ", " (fieldTypes l)

/-- `strings.Contains(s, ",")`. -/
def containsComma (s : String) : Bool := s.data.contains ','

/-- `signature` (visitor.go second revision, lines 901-913): wrap the
parameter types in parentheses, append a space to that part when the
joined result string is non-empty, and wrap the result string in
`" (" ... ")"` exactly when it contains a comma. -/
def signature2 (fnc : FuncType) : String :=
  let parms := "(" ++ typelist (some fnc.params) ++ ")"
  let rslts := typelist fnc.results
  let parms := if rslts = "" then parms else parms ++ " "
  let rslts := if containsComma rslts then " (" ++ rslts ++ ")" else rslts
  parms ++ rslts

/-! ## The versioned-path locator (`verspath`, main.go lines 68-91)

`verspath` climbs from the import path towards the import-cache root
`dirimps`, looking at each level for sibling directories named
`base@version`; at the first (deepest) level where some exist it
rebuilds the path through the lexicographically greatest version and
re-appends the remaining subpath.  Reaching `dirimps` without a match
returns the empty string.  The directory listing comes from the file
system (`os.ReadDir`), modelled as an association from directory to
entry names (`none` = read error, which the source skips over).  The Go
loop does not terminate when `dirimps` is never reached (e.g. a path
not under the cache root); the model makes that explicit with fuel —
one unit per path level, enough for every terminating source run. -/

/-- `strings.Cut(s, "@")`: `some (before, after)` at the first `@`. -/
def cutAt (s : String) : Option (String × String) :=
  (findCut ['@'] s.data).map (fun q => (String.mk q.1, String.mk q.2))

/-- `sort.Strings`: plain lexicographic sort. -/
def sortStrings (l : List String) : List String :=
  List.insertionSort strLe l

/-- One `os.ReadDir`: entry names of a directory, if readable. -/
def readDir (fs : List (String × List String)) (dir : String) : Option (List String) :=
  (fs.find? (fun p => p.1 == dir)).map Prod.snd

/-- The versioned entries for `base` in a directory listing. -/
def versOf (ents : List String) (base : String) : List String :=
  ents.filterMap (fun ent =>
    match cutAt ent with
    | some (b, a) => if b = base then some a else none
    | none => none)

/-- The loop of `verspath`, with fuel for the climb. -/
def verspathGo (fs : List (String × List String)) (dirimps : String) :
    Nat → String → String → String
  | 0, _, _ => ""
  | fuel + 1, pth, rem =>
      let dir := pathDir pth
      let base := pathBase pth
      if dir = dirimps then ""
      else
        match readDir fs dir with
        | some ents =>
            let vers := sortStrings (versOf ents base)
            if h : vers ≠ [] then
              pathJoin (pathJoin dir (base ++ "@" ++ vers.getLast h)) rem
            else verspathGo fs dirimps fuel dir (pathJoin base rem)
        | none => verspathGo fs dirimps fuel dir (pathJoin base rem)

/-- `verspath(pth)` with the ambient file system and cache root. -/
def verspath (fs : List (String × List String)) (dirimps pth : String) : String :=
  verspathGo fs dirimps (pth.length + 1) pth ""

/-! ## The node-graph builder (nodegraph.go)

The builder is parameterized by the four ambient strings (standard
root, import-cache root, module root, module import path).  `dirmap` is
a Go map ranged over in `node()`; its iteration order is the runtime's
choice, so the model takes the ordered entry list `dm` as an explicit
parameter (`dirmapEntries` gives the entry set the program builds).
`time.Now().Local().Format(...)` is an effect; its formatted result is
the explicit parameter `now`. -/

structure Cfg where
  dirstd : String
  dirimps : String
  dirmod : String
  gomod : String

/-- The four top subgraph categories (`standard, module, imports,
vendor` in nodegraph.go line 18). -/
inductive Tag where
  | standard | imports | vendored | module

/-- The category name string: `"std"`, `"import"`, `"vendor"`, or the
module import path (`module = gomod`). -/
def tagStr (cfg : Cfg) : Tag → String
  | .standard => "std"
  | .imports => "import"
  | .vendored => "vendor"
  | .module => cfg.gomod

/-- Go `%q` for the strings the program quotes (no characters needing
escapes arise in graph names the source constructs). -/
def goQuote (s : String) : String := "\"" ++ s ++ "\""

/-- 64-bit FNV-1 (`hash/fnv.New64`): multiply by the prime, then XOR
the byte, mod 2^64.  Characters are code points, which coincide with
the UTF-8 bytes on the ASCII strings the program hashes. -/
def fnv64 (s : String) : Nat :=
  s.data.foldl (fun h c => ((h * 1099511628211) % 2 ^ 64) ^^^ c.toNat) 14695981039346656037

/-- The ten HSV colors (nodegraph.go lines 63-74). -/
def colors : List String :=
  ["0.0 0.5 0.80", "0.1 0.5 0.75", "0.2 0.5 0.7 ", "0.3 0.5 0.75", "0.4 0.5 0.75",
   "0.5 0.5 0.75", "0.6 0.5 0.9 ", "0.7 0.5 1.0", "0.8 0.5 0.9", "0.9 0.5 0.85"]

/-- `color(s)`: pick a color by the FNV-1 hash mod 10. -/
def color (s : String) : String := colors.getD (fnv64 s % 10) ""

/-- `subgtmpl`: a subgraph statement; the leading character controls
sort position. -/
def subgtmpl (c : Char) (name bg label extra : String) : String :=
  String.singleton c ++ "\nsubgraph " ++ goQuote name ++ " \x7b cluster=true fontcolor=black bgcolor="
    ++ goQuote bg ++ " label=" ++ goQuote label ++ " " ++ extra

/-- `nodetmpl`: a node statement with an open tooltip attribute; the
leading pad space controls sort position. -/
def nodetmpl (name col label : String) : String :=
  " \n" ++ goQuote name ++ " [fillcolor=" ++ goQuote col ++ " label=" ++ goQuote label
    ++ " tooltip=\""

/-- The close sentinel for a subgraph: sorts last (0x7F), emits `}`. -/
def closeSubg : String := "\x7F\n\x7d"

/-- The close sentinel for a node's tooltip/attribute list: `"]`. -/
def closeNode : String := "\x7F\"]"

/-- A fresh subtree holding only the subgraph close sentinel. -/
def closedSubg : Tree := Tree.node [(closeSubg, Tree.empty)]

/-- A fresh subtree holding only the node close sentinel. -/
def closedNode : Tree := Tree.node [(closeNode, Tree.empty)]

/-- The top subgraph statement of each category (`graphmap`, plus the
module entry added by `nodegraph`). -/
def graphStmt (cfg : Cfg) : Tag → String
  | .standard => subgtmpl (Char.ofNat 1) "std" "lightgrey" "Go Standard Packages" "rank=source"
  | .module => subgtmpl (Char.ofNat 2) cfg.gomod "lightgrey" cfg.gomod "rank=same"
  | .imports => subgtmpl (Char.ofNat 3) "import" "lightgrey" "Imported Packages" "rank=sink"
  | .vendored => subgtmpl (Char.ofNat 4) "vendor" "lightgrey" "Vendored Packages" "rank=sink"

/-- `order := gr[0]`: the first byte of a top subgraph statement. -/
def ordOf (gr : String) : Nat :=
  match gr.data with
  | c :: _ => c.toNat
  | [] => 0

/-- The entries of `dirmap` as the program populates them (iteration
order is a runtime choice; theorems quantify over the order). -/
def dirmapEntries (cfg : Cfg) : List (String × Tag) :=
  [(cfg.dirstd, Tag.standard), (cfg.dirimps, Tag.imports)]
    ++ (if cfg.dirmod = cfg.dirstd then [] else [(cfg.dirmod, Tag.module)])

/-- `strings.Cut(abs, "/vendor/")`: the part after the first
occurrence, when present. -/
def cutAfter (s pat : String) : Option String :=
  (findCut pat.data s.data).map (fun q => String.mk q.2)

/-- The cluster-chain directories of a package path: the `dirs` loop
iterates `strings.Split(path.Dir(pkg), "/")` and breaks at `"."`. -/
def dirsOf (pkg : String) : List String :=
  (splitSlash (pathDir pkg)).takeWhile (fun x => !(x == "."))

/-- The builder's mutable state: the node/cluster tree, the two
statement caches, and the edge set. -/
structure GState where
  nodes : Tree
  subgmap : List (String × String)
  nodemap : List (String × String)
  edges : Tree

/-- String-map lookup for the statement caches. -/
def alookup (m : List (String × String)) (k : String) : Option String :=
  (m.find? (fun p => p.1 == k)).map Prod.snd

/-- A cluster subgraph statement for a package path. -/
def sgStmt (pkg : String) : String :=
  subgtmpl (Char.ofNat 0) pkg (color pkg) pkg "rank=same"

/-- Look up or create the node statement for a node key (`nodemap`). -/
def ndLookup (nmap : List (String × String)) (nodeKey pkg : String) :
    String × List (String × String) :=
  match alookup nmap nodeKey with
  | some nd => (nd, nmap)
  | none =>
      let nd := nodetmpl nodeKey (color nodeKey) pkg
      (nd, nmap ++ [(nodeKey, nd)])

/-- The walk of `node()` below the category tree: descend the cluster
chain (creating clusters, relocating a pre-existing leaf node whose key
matches a newly needed cluster), then place the leaf node, inside its
own cluster when one was ever created for the same key.  Returns the
updated subtree, updated caches, and the node key and node statement of
the leaf. -/
def placeIn (tagS : String) (smap nmap : List (String × String)) (tr : Tree)
    (pkgAcc : String) :
    List String → String →
      Tree × List (String × String) × List (String × String) × String × String
  | [], base =>
      let pkg := pathJoin pkgAcc base
      let pkg := if pkg = "." then tagS else pkg
      let nodeKey := tagS ++ ": " ++ pkg
      let (nd, nmap) := ndLookup nmap nodeKey pkg
      match alookup smap nodeKey with
      | some sg =>
          let tr := if tr.contains sg then tr else tr.set sg closedSubg
          let inner := tr.findD sg
          let inner := if inner.contains nd then inner else inner.set nd closedNode
          (tr.set sg inner, smap, nmap, nodeKey, nd)
      | none =>
          let tr := if tr.contains nd then tr else tr.set nd closedNode
          (tr, smap, nmap, nodeKey, nd)
  | dir :: rest, base =>
      let pkg := pathJoin pkgAcc dir
      let nodeKey := tagS ++ ": " ++ pkg
      let (sg, smap) :=
        match alookup smap nodeKey with
        | some sg => (sg, smap)
        | none => (sgStmt pkg, smap ++ [(nodeKey, sgStmt pkg)])
      let tr := if tr.contains sg then tr else tr.set sg closedSubg
      let nd := nodetmpl nodeKey (color nodeKey) pkg
      let tr :=
        match tr.find? nd with
        | some n =>
            let tr := tr.erase nd
            tr.set sg ((tr.findD sg).set nd n)
        | none => tr
      let (inner, smap, nmap, nk, ndk) := placeIn tagS smap nmap (tr.findD sg) pkg rest base
      (tr.set sg inner, smap, nmap, nk, ndk)

/-- `node(abs)`: try each `dirmap` entry in iteration order; classify,
apply the vendor override, and place the node, returning the category
order byte, the node key, and the node statement (`none` when `abs`
resolves under no root: Go returns an orphan `tree{}` whose later
tooltip writes are lost). -/
def placeAbs (cfg : Cfg) (st : GState) (abs : String) :
    List (String × Tag) → (Nat × String × Option String) × GState
  | [] => ((0, "", none), st)
  | (pth, tg) :: rest =>
      match subdir pth abs with
      | none => placeAbs cfg st abs rest
      | some pkg =>
          if (subdir cfg.dirmod abs).isSome ∧ pth = cfg.dirimps then
            placeAbs cfg st abs rest
          else
            let (tg, pkg) :=
              match cutAfter abs "/vendor/" with
              | some a => (Tag.vendored, a)
              | none => (tg, pkg)
            let gr := graphStmt cfg tg
            let (tr, smap, nmap, nodeKey, nd) :=
              placeIn (tagStr cfg tg) st.subgmap st.nodemap (st.nodes.findD gr) ""
                (dirsOf pkg) (pathBase pkg)
            ((ordOf gr, nodeKey, some nd),
             { st with nodes := st.nodes.set gr tr, subgmap := smap, nodemap := nmap })

/-- The tooltip line recorded beneath a node statement for one endpoint
label (`" " + node + "\\n"`, a literal backslash-n). -/
def tooltipKey (label : String) : String := " " ++ label ++ "\\n"

mutual
/-- Insert key `tt` (with an empty subtree) beneath the first node of
the tree whose key is `nd` — the model of writing through the live Go
map reference returned by `node()` (node statements occur at most once
in the constructed tree). -/
def insertUnderT (t : Tree) (nd tt : String) : Tree × Bool :=
  match t with
  | .node cs =>
      let (cs', f) := insertUnderL cs nd tt
      (.node cs', f)

def insertUnderL (cs : List (String × Tree)) (nd tt : String) :
    List (String × Tree) × Bool :=
  match cs with
  | [] => ([], false)
  | (k, c) :: rest =>
      if k = nd then ((k, c.set tt Tree.empty) :: rest, true)
      else
        match insertUnderT c nd tt with
        | (c', true) => ((k, c') :: rest, true)
        | (_, false) =>
            let (rest', f) := insertUnderL rest nd tt
            ((k, c) :: rest', f)
end

/-- Record a tooltip line beneath a placed node statement; a `none`
statement is Go's orphan tree, whose writes are dropped. -/
def tooltip (t : Tree) (nd : Option String) (tt : String) : Tree :=
  match nd with
  | none => t
  | some nd => (insertUnderT t nd tt).1

/-- The ports attribute (nodegraph.go lines 128-133). -/
def portsFor (d r : Nat) : String :=
  if d = 1 ∧ r = 1 then "tailport=w headport=w"
  else if d = r then "tailport=e headport=e"
  else "tailport=e headport=w"

/-- The edge statement (nodegraph.go lines 135-142); `pd`/`pr` are the
post-swap `dnode`/`rnode`. -/
def edgeStmt (pd pr ports dir : String) : String :=
  "\n" ++ goQuote pd ++ " -> " ++ goQuote pr ++ " [" ++ ports ++ " dir=" ++ dir
    ++ " color=" ++ goQuote (color pr ++ ";0.5:" ++ color pd)
    ++ " tooltip=\"" ++ pd ++ "\\n" ++ pr ++ "\"]"

/-- Process one resolved target `dabs` of referencer `rabs` (already
placed as `(r, rnode, rnd)`): place the target, apply the skip guard,
record the four tooltip lines, and add the edge statement. -/
def refStep (cfg : Cfg) (dm : List (String × Tag)) (st : GState)
    (r : Nat) (rnode : String) (rnd : Option String) (dabs : String) : GState :=
  let pl := placeAbs cfg st dabs dm
  let d := pl.1.1
  let dnode := pl.1.2.1
  let dnd := pl.1.2.2
  let st := pl.2
  if dnode = rnode ∨ (¬ cfg.dirmod = cfg.dirstd ∧ ¬ d = 2 ∧ ¬ r = 2) then st
  else
    let nodes := tooltip st.nodes rnd (tooltipKey rnode)
    let nodes := tooltip nodes rnd (tooltipKey dnode)
    let nodes := tooltip nodes dnd (tooltipKey rnode)
    let nodes := tooltip nodes dnd (tooltipKey dnode)
    let swap := r < d ∨ (r = d ∧ strLt rnode dnode = true)
    let dir := if swap then "forward" else "back"
    let pd := if swap then rnode else dnode
    let pr := if swap then dnode else rnode
    let e := edgeStmt pd pr (portsFor d r) dir
    { st with nodes := nodes, edges := st.edges.set e Tree.empty }

/-- Process one referencer and its resolved target set. -/
def refEntry (cfg : Cfg) (dm : List (String × Tag)) (st : GState)
    (rabs : String) (dabss : List String) : GState :=
  let pl := placeAbs cfg st rabs dm
  dabss.foldl (fun st dabs => refStep cfg dm st pl.1.1 pl.1.2.1 pl.1.2.2 dabs) pl.2

/-- The initial builder state: the three fixed top subgraphs, plus the
module's unless the module root is the standard root. -/
def initState (cfg : Cfg) : GState :=
  let base := Tree.node
    [(graphStmt cfg .standard, closedSubg),
     (graphStmt cfg .imports, closedSubg),
     (graphStmt cfg .vendored, closedSubg)]
  { nodes := if cfg.dirmod = cfg.dirstd then base else base.set (graphStmt cfg .module) closedSubg
    subgmap := []
    nodemap := []
    edges := Tree.empty }

/-- The reference-processing loop of `nodegraph`: the references tree
(symbol → referencer → resolved targets) in iteration order. -/
def buildState (cfg : Cfg) (dm : List (String × Tag))
    (references : List (String × List (String × List String))) : GState :=
  references.foldl
    (fun st p => p.2.foldl (fun st q => refEntry cfg dm st q.1 q.2) st)
    (initState cfg)

mutual
/-- Total size of a tree, for traversal termination. -/
def Tree.tsize : Tree → Nat
  | .node cs => tsizeL cs + 1

def tsizeL : List (String × Tree) → Nat
  | [] => 0
  | (_, c) :: rest => c.tsize + tsizeL rest
end

/-- One tree level in canonical traversal order, with subtrees. -/
def sortAssoc (cs : List (String × Tree)) : List (String × Tree) :=
  List.insertionSort (fun a b => canonOrd a.1 b.1)
    (cs.filter (fun p => !(p.1 == "")))

/-- `traverse` (utils.go) restricted to what `nodegraph` does with it:
the pre-order key sequence in canonical sort order, with fuel for
termination (`emit` instantiates the fuel with the tree size). -/
def emitF : Nat → Tree → List String
  | 0, _ => []
  | n + 1, t => (sortAssoc t.children).flatMap (fun p => p.1 :: emitF n p.2)

/-- The pre-order canonical key sequence of a tree. -/
def emit (t : Tree) : List String := emitF t.tsize t

/-- The node/cluster section of the output: each visited statement with
its sort byte trimmed (`graph += s[1:]`). -/
def nodesText (t : Tree) : String :=
  (emit t).foldl (fun acc s => acc ++ s.drop 1) ""

/-- The edge section of the output (`graph += s`). -/
def edgesText (t : Tree) : String :=
  (emit t).foldl (fun acc s => acc ++ s) ""

/-- The fixed graph header (nodegraph.go lines 147-164); `now` is the
formatted local time the source interpolates into the label. -/
def header (cfg : Cfg) (now : String) : String :=
  "digraph \"Module \\\"" ++ cfg.gomod ++ "\\\" Packages Nodegraph\" \x7b\n  label=\"\\G "
    ++ now
    ++ "\"\n  labelloc=t\n  fontname=\"sans-serif\"\n  fontsize=14.0\n  fontcolor=lightgrey"
    ++ "\n  bgcolor=black\n  rankdir=LR\n  newrank=true\n  compound=true\n  ordering=out"
    ++ "\n  nodesep=0.05\n  ranksep=8"
    ++ "\n  node [shape=rect style=\"filled\" height=0.3 width=1.5 margin=\"0.2,0.0\""
    ++ " fontname=\"sans-serif\" fontsize=11.0]"
    ++ "\n  edge [penwidth=2.0]"

/-- `nodegraph(references)`: the full graph-description text. -/
def nodegraph (cfg : Cfg) (dm : List (String × Tag)) (now : String)
    (references : List (String × List (String × List String))) : String :=
  let st := buildState cfg dm references
  header cfg now ++ nodesText st.nodes ++ edgesText st.edges ++ "\n\x7d\n"

/-- The statement sequence whose concatenation (first byte trimmed) is
the node/cluster section of the nodegraph output. -/
def nodeTokens (cfg : Cfg) (dm : List (String × Tag))
    (references : List (String × List (String × List String))) : List String :=
  emit (buildState cfg dm references).nodes

/-! ## Spec-side definitions

Each definition in this section follows the specification's words, to
be compared with the corresponding definition taken from the source. -/

/-- Spec wording for the parameter/result type occurrences: a field
declaring `n` names with one shared type contributes that type `n`
times (once when anonymous). -/
def specFieldTypes (fs : List Field) : List String :=
  fs.flatMap (fun f => List.replicate (max 1 f.names.length) f.typ)

/-- Spec wording for `signature`: `"(" + comma-joined-parameter-types
+ ")"`, then `""`, `" " + the result type`, or
`" (" + comma-joined-result-types + ")"` by result-type count. -/
def specSignature (fnc : FuncType) : String :=
  let ps := specFieldTypes fnc.params
  let rs := match fnc.results with
    | none => []
    | some l => specFieldTypes l
  "(" ++ String.intercalate ", " ps ++ ")" ++
    match rs with
    | [] => ""
    | [r] => " " ++ r
    | _ => " (" ++ String.intercalate ", " rs ++ ")"

/-- Amended-claim wording for the second `signature` implementation:
parameters wrapped in parentheses, then a trailing space on that part
whenever the comma-joined result string is non-empty, then the result
string itself, wrapped in `" (" ... ")"` exactly when it contains a
comma (hence a doubled space before any parenthesized results). -/
def specSignature2 (fnc : FuncType) : String :=
  let ps := "(" ++ String.intercalate ", " (specFieldTypes fnc.params) ++ ")"
  let rs := match fnc.results with
    | none => ""
    | some l => String.intercalate ", " (specFieldTypes l)
  (if rs = "" then ps else ps ++ " ") ++
    (if containsComma rs then " (" ++ rs ++ ")" else rs)

/-! ## Bracket structure of the rendered node section

Claim C5 reads the emitted statement sequence as a bracket string:
a subgraph statement (its sort byte followed by `"\nsubgraph "`) opens
a cluster, and the subgraph close sentinel closes one. -/

/-- A subgraph-opening statement: after the sort byte the text begins
`subgraph `. -/
def isOpenTok (s : String) : Bool :=
  (s.data.drop 1).take 10 == "\nsubgraph ".data

/-- Opens in a statement sequence. -/
def opensIn (l : List String) : Nat := l.countP isOpenTok

/-- Closes in a statement sequence. -/
def closesIn (l : List String) : Nat := l.countP (fun s => s == closeSubg)

/-- Properly matched bracket sequences: every cluster's close appears
after its opening statement and before its parent's close. -/
inductive Matched : List String → Prop where
  | nil : Matched []
  | flat : ∀ {k : String} {l : List String},
      isOpenTok k = false → ¬ k = closeSubg → Matched l → Matched (k :: l)
  | node : ∀ {k : String} {body rest : List String},
      isOpenTok k = true → Matched body → Matched rest →
      Matched (k :: (body ++ closeSubg :: rest))

/-- Keys that sort strictly before the close sentinel whatever their
tail: empty (filtered from traversal anyway) or starting with an
untrimmed character below `0x7F`. -/
def belowClose (k : String) : Bool :=
  match k.data with
  | [] => true
  | c :: _ => !(isMark c) && decide (c.toNat < 0x7F)

/-- Trees containing no subgraph statements and no subgraph close
sentinels at any depth (the contents of a node statement: its close
sentinel and tooltip lines). -/
inductive NoBrack : Tree → Prop where
  | mk : ∀ cs : List (String × Tree),
      (∀ p ∈ cs, isOpenTok p.1 = false) →
      (∀ p ∈ cs, ¬ p.1 = closeSubg) →
      (∀ p ∈ cs, NoBrack p.2) →
      NoBrack (.node cs)

mutual
/-- A non-sentinel child of well-formed cluster contents: a nested
well-formed cluster, or a bracket-free subtree. -/
inductive ChildOK : String → Tree → Prop where
  | opn : ∀ {k : String} {t : Tree}, isOpenTok k = true → WFsub t → ChildOK k t
  | flt : ∀ {k : String} {t : Tree}, isOpenTok k = false → NoBrack t → ChildOK k t

/-- Well-formed cluster contents: exactly one close sentinel (with an
empty subtree), every other key sorting strictly before it, each child
a well-formed cluster or a bracket-free subtree. -/
inductive WFsub : Tree → Prop where
  | mk : ∀ cs : List (String × Tree),
      ((cs.map Prod.fst).count closeSubg = 1) →
      (∀ p ∈ cs, p.1 = closeSubg → p.2 = Tree.empty) →
      (∀ p ∈ cs, ¬ p.1 = closeSubg → belowClose p.1 = true) →
      (∀ p ∈ cs, ¬ p.1 = closeSubg → ChildOK p.1 p.2) →
      WFsub (.node cs)
end

/-- The top level of the node tree: every child is a top subgraph
statement with well-formed cluster contents. -/
inductive TopWF : Tree → Prop where
  | mk : ∀ cs : List (String × Tree),
      (∀ p ∈ cs, isOpenTok p.1 = true) →
      (∀ p ∈ cs, WFsub p.2) →
      TopWF (.node cs)

/-- A string whose first character is not a newline (vacuously true when
empty): tooltip lines built from labels with this property are never
subgraph-opening statements. -/
def goodLabel (s : String) : Bool :=
  match s.data with
  | [] => true
  | c :: _ => !(c == '\n')

/-- How one entry of a tree level relates to the corresponding entry
after a tooltip insertion: same key, and the subtree is unchanged, got
the tooltip leaf (at the target key), or was rewritten recursively. -/
def InsRel (nd tt : String) (p q : String × Tree) : Prop :=
  p.1 = q.1 ∧
    (q.2 = p.2 ∨ (p.1 = nd ∧ q.2 = p.2.set tt Tree.empty) ∨ q.2 = (insertUnderT p.2 nd tt).1)

/-- The builder-state invariant behind the bracket-balance claim: the
node tree is well-formed, the fixed top subgraph statements are present,
and the cached statements have the shapes their creation sites give
them. -/
def SInv (cfg : Cfg) (st : GState) : Prop :=
  TopWF st.nodes ∧
  st.nodes.contains (graphStmt cfg .standard) = true ∧
  st.nodes.contains (graphStmt cfg .imports) = true ∧
  st.nodes.contains (graphStmt cfg .vendored) = true ∧
  (¬ cfg.dirmod = cfg.dirstd → st.nodes.contains (graphStmt cfg .module) = true) ∧
  (∀ p ∈ st.subgmap, isOpenTok p.2 = true ∧ belowClose p.2 = true) ∧
  (∀ p ∈ st.nodemap, isOpenTok p.2 = false ∧ belowClose p.2 = true)

/-- Two trees that agree up to reordering of sibling entries: at every
level the keys are duplicate-free permutations of each other and the
subtrees under a common key again agree.  Trees built by inserting the
same entries in different map-iteration orders are related this way. -/
inductive TreeEquiv : Tree → Tree → Prop where
  | mk : ∀ cs cs' : List (String × Tree),
      (cs.map Prod.fst).Nodup →
      (cs'.map Prod.fst).Nodup →
      (cs.map Prod.fst).Perm (cs'.map Prod.fst) →
      (∀ k v v', (k, v) ∈ cs → (k, v') ∈ cs' → TreeEquiv v v') →
      TreeEquiv (.node cs) (.node cs')

/-! # Theorems -/

/-! ## Order lemmas for the string comparator -/

theorem charListLt_irrefl : ∀ l, charListLt l l = false := by
  intro l
  induction l with
  | nil => rfl
  | cons a as ih => simp [charListLt, ih]

theorem charListLt_asymm :
    ∀ l₁ l₂, charListLt l₁ l₂ = true → charListLt l₂ l₁ = false := by
  intro l₁
  induction l₁ with
  | nil =>
      intro l₂ h
      cases l₂ with
      | nil => simp [charListLt] at h
      | cons b bs => rfl
  | cons a as ih =>
      intro l₂ h
      cases l₂ with
      | nil => simp [charListLt] at h
      | cons b bs =>
          simp only [charListLt] at h ⊢
          by_cases hab : a.toNat < b.toNat
          · have : ¬ b.toNat < a.toNat := by omega
            simp [hab, this]
          · by_cases hba : b.toNat < a.toNat
            · simp [hab, hba] at h
            · simp only [hab, hba, if_false] at h ⊢
              exact ih bs h

theorem charListLt_trans :
    ∀ l₁ l₂ l₃, charListLt l₁ l₂ = true → charListLt l₂ l₃ = true →
      charListLt l₁ l₃ = true := by
  intro l₁
  induction l₁ with
  | nil =>
      intro l₂ l₃ h12 h23
      cases l₃ with
      | nil =>
          cases l₂ with
          | nil => exact h12
          | cons b bs => simp [charListLt] at h23
      | cons c cs => rfl
  | cons a as ih =>
      intro l₂ l₃ h12 h23
      cases l₂ with
      | nil => simp [charListLt] at h12
      | cons b bs =>
          cases l₃ with
          | nil => simp [charListLt] at h23
          | cons c cs =>
              simp only [charListLt] at h12 h23 ⊢
              by_cases hab : a.toNat < b.toNat
              · by_cases hbc : b.toNat < c.toNat
                · have hac : a.toNat < c.toNat := by omega
                  simp [hac]
                · by_cases hcb : c.toNat < b.toNat
                  · simp [hbc, hcb] at h23
                  · have hbc' : b.toNat = c.toNat := by omega
                    have hac : a.toNat < c.toNat := by omega
                    simp [hac]
              · by_cases hba : b.toNat < a.toNat
                · simp [hab, hba] at h12
                · have hab' : a.toNat = b.toNat := by omega
                  simp only [hab, hba, if_false] at h12
                  by_cases hbc : b.toNat < c.toNat
                  · have hac : a.toNat < c.toNat := by omega
                    simp [hac]
                  · by_cases hcb : c.toNat < b.toNat
                    · simp [hbc, hcb] at h23
                    · have hac : ¬ a.toNat < c.toNat := by omega
                      have hca : ¬ c.toNat < a.toNat := by omega
                      simp only [hbc, hcb, if_false] at h23
                      simp only [hac, hca, if_false]
                      exact ih bs cs h12 h23

theorem charListLt_eq_of_not :
    ∀ l₁ l₂, charListLt l₁ l₂ = false → charListLt l₂ l₁ = false → l₁ = l₂ := by
  intro l₁
  induction l₁ with
  | nil =>
      intro l₂ h12 _
      cases l₂ with
      | nil => rfl
      | cons b bs => simp [charListLt] at h12
  | cons a as ih =>
      intro l₂ h12 h21
      cases l₂ with
      | nil => simp [charListLt] at h21
      | cons b bs =>
          simp only [charListLt] at h12 h21
          by_cases hab : a.toNat < b.toNat
          · simp [hab] at h12
          · by_cases hba : b.toNat < a.toNat
            · simp [hba] at h21
            · have hab' : a.toNat = b.toNat := by omega
              have : a = b := by
                apply Char.ext
                apply UInt32.ext
                exact hab'
              simp only [hab, hba, if_false] at h12 h21
              rw [this, ih bs h12 h21]

theorem strLt_asymm (a b : String) (h : strLt a b = true) : strLt b a = false :=
  charListLt_asymm _ _ h

theorem strLt_trans (a b c : String) (h1 : strLt a b = true) (h2 : strLt b c = true) :
    strLt a c = true :=
  charListLt_trans _ _ _ h1 h2

theorem strLt_irrefl (a : String) : strLt a a = false := charListLt_irrefl _

theorem str_eq_of_not_lt (a b : String) (h1 : strLt a b = false)
    (h2 : strLt b a = false) : a = b := by
  have hd : a.data = b.data := charListLt_eq_of_not _ _ h1 h2
  cases a
  cases b
  exact congrArg String.mk hd

/-- Trichotomy for the Go string comparison. -/
theorem strLt_total (a b : String) :
    strLt a b = true ∨ strLt b a = true ∨ a = b := by
  cases h1 : strLt a b with
  | true => exact Or.inl rfl
  | false =>
      cases h2 : strLt b a with
      | true => exact Or.inr (Or.inl rfl)
      | false => exact Or.inr (Or.inr (str_eq_of_not_lt a b h1 h2))

instance : IsTotal String strLe :=
  ⟨by
    intro a b
    rcases strLt_total a b with h | h | h
    · exact Or.inl (strLt_asymm _ _ h)
    · exact Or.inr (strLt_asymm _ _ h)
    · exact Or.inl (h ▸ strLt_irrefl a)⟩

instance : IsTrans String strLe :=
  ⟨by
    intro a b c hab hbc
    unfold strLe at hab hbc ⊢
    cases hca : strLt c a with
    | false => rfl
    | true =>
        rcases strLt_total a b with h | h | h
        · have := strLt_trans _ _ _ hca h
          rw [this] at hbc
          exact hbc
        · rw [h] at hab
          exact hab
        · subst h
          rw [hca] at hbc
          exact hbc⟩

instance : IsAntisymm String strLe :=
  ⟨fun a b hab hba => str_eq_of_not_lt a b hba hab⟩

instance : IsRefl String strLe := ⟨fun a => strLt_irrefl a⟩

instance : IsTotal String canonOrd :=
  ⟨by
    intro a b
    rcases strLt_total (trimMarks a) (trimMarks b) with h | h | h
    · exact Or.inl (Or.inl h)
    · exact Or.inr (Or.inl h)
    · rcases (@IsTotal.total String strLe _ a b) with h' | h'
      · exact Or.inl (Or.inr ⟨h, h'⟩)
      · exact Or.inr (Or.inr ⟨h.symm, h'⟩)⟩

instance : IsTrans String canonOrd :=
  ⟨by
    intro a b c hab hbc
    rcases hab with h1 | ⟨h1, h1'⟩ <;> rcases hbc with h2 | ⟨h2, h2'⟩
    · exact Or.inl (strLt_trans _ _ _ h1 h2)
    · exact Or.inl (h2 ▸ h1)
    · exact Or.inl (h1 ▸ h2)
    · exact Or.inr ⟨h1.trans h2, @IsTrans.trans String strLe _ _ _ _ h1' h2'⟩⟩

instance : IsAntisymm String canonOrd :=
  ⟨by
    intro a b hab hba
    rcases hab with h1 | ⟨h1, h1'⟩ <;> rcases hba with h2 | ⟨h2, h2'⟩
    · have := strLt_asymm _ _ h1
      rw [this] at h2
      exact absurd h2 (by simp)
    · rw [h2] at h1
      rw [strLt_irrefl] at h1
      exact absurd h1 (by simp)
    · rw [h1] at h2
      rw [strLt_irrefl] at h2
      exact absurd h2 (by simp)
    · exact @antisymm String strLe _ _ _ h1' h2'⟩

instance : IsRefl String canonOrd :=
  ⟨fun a => Or.inr ⟨rfl, strLt_irrefl a⟩⟩

/-! ## Basic tree lemmas -/

theorem lfind_map_set (cs : List (String × Tree)) (k : String) (v : Tree) :
    ((cs.map (fun p => if p.1 == k then (k, v) else p)).find? (fun p => p.1 == k))
      = if (cs.find? (fun p => p.1 == k)).isSome then some (k, v) else none := by
  rw [List.find?_map]
  have hpred : ((fun p : String × Tree => p.1 == k) ∘ fun p => if p.1 == k then (k, v) else p)
      = fun p : String × Tree => p.1 == k := by
    funext p
    by_cases hp : p.1 = k <;> simp [Function.comp, hp]
  rw [hpred]
  cases hf : cs.find? (fun p => p.1 == k) with
  | none => simp
  | some q =>
      have hq : (q.1 == k) = true := @List.find?_some _ (fun p => p.1 == k) q cs hf
      simp only [Option.map_some, Option.isSome_some, if_true]
      simp only [beq_iff_eq] at hq
      simp [hq]

theorem lfind_map_set_ne (cs : List (String × Tree)) (k i : String) (v : Tree)
    (h : ¬ i = k) :
    ((cs.map (fun p => if p.1 == k then (k, v) else p)).find? (fun p => p.1 == i))
      = cs.find? (fun p => p.1 == i) := by
  rw [List.find?_map]
  have hpred : ((fun p : String × Tree => p.1 == i) ∘ fun p => if p.1 == k then (k, v) else p)
      = fun p : String × Tree => p.1 == i := by
    funext p
    by_cases hp : p.1 = k
    · have : ¬ (k = i) := fun hk => h hk.symm
      simp [Function.comp, hp, this]
    · simp [Function.comp, hp]
  rw [hpred]
  cases hf : cs.find? (fun p => p.1 == i) with
  | none => simp
  | some q =>
      have hq : (q.1 == i) = true := @List.find?_some _ (fun p => p.1 == i) q cs hf
      simp only [beq_iff_eq] at hq
      have : ¬ (q.1 = k) := fun hk => h (hq ▸ hk)
      simp [this]

theorem lfind_append_single (cs : List (String × Tree)) (k : String) (v : Tree)
    (h : cs.find? (fun p => p.1 == k) = none) :
    ((cs ++ [(k, v)]).find? (fun p => p.1 == k)) = some (k, v) := by
  rw [List.find?_append, h, Option.none_or]
  have : ((fun p : String × Tree => p.1 == k) (k, v)) = true := by simp
  exact @List.find?_cons_of_pos _ (fun p => p.1 == k) (k, v) [] this

theorem lfind_append_single_ne (cs : List (String × Tree)) (k i : String) (v : Tree)
    (h : ¬ i = k) :
    ((cs ++ [(k, v)]).find? (fun p => p.1 == i)) = cs.find? (fun p => p.1 == i) := by
  rw [List.find?_append]
  have hne : ¬ (((fun p : String × Tree => p.1 == i) (k, v)) = true) := by
    simp only [beq_iff_eq]
    exact fun hk => h hk.symm
  rw [@List.find?_cons_of_neg _ (fun p => p.1 == i) (k, v) [] hne, List.find?_nil,
    Option.or_none]

theorem Tree.find?_set_self (t : Tree) (k : String) (v : Tree) :
    (t.set k v).find? k = some v := by
  show ((Tree.node _).children.find? _).map Prod.snd = _
  by_cases h : (t.contains k : Prop)
  · simp only [Tree.set, h, if_true]
    show ((t.children.map _).find? _).map Prod.snd = _
    rw [lfind_map_set]
    have : (t.children.find? (fun p => p.1 == k)).isSome = true := by
      unfold Tree.contains Tree.find? at h
      rwa [Option.isSome_map'] at h
    simp [this]
  · simp only [Tree.set, h, if_false]
    have hn : t.children.find? (fun p => p.1 == k) = none := by
      unfold Tree.contains Tree.find? at h
      simp only [Option.isSome_map'] at h
      exact Option.not_isSome_iff_eq_none.mp (by simpa using h)
    show ((t.children ++ [(k, v)]).find? _).map Prod.snd = _
    rw [lfind_append_single _ _ _ hn]
    rfl

theorem Tree.find?_set_ne (t : Tree) (k i : String) (v : Tree) (h : ¬ i = k) :
    (t.set k v).find? i = t.find? i := by
  show ((Tree.node _).children.find? _).map Prod.snd = _
  by_cases hc : (t.contains k : Prop)
  · simp only [Tree.set, hc, if_true]
    show ((t.children.map _).find? _).map Prod.snd = _
    rw [lfind_map_set_ne _ _ _ _ h]
    rfl
  · simp only [Tree.set, hc, if_false]
    show ((t.children ++ [(k, v)]).find? _).map Prod.snd = _
    rw [lfind_append_single_ne _ _ _ _ h]
    rfl

theorem Tree.findD_set_self (t : Tree) (k : String) (v : Tree) :
    (t.set k v).findD k = v := by
  unfold Tree.findD
  rw [Tree.find?_set_self]
  rfl

theorem Tree.findD_set_ne (t : Tree) (k i : String) (v : Tree) (h : ¬ i = k) :
    (t.set k v).findD i = t.findD i := by
  unfold Tree.findD
  rw [Tree.find?_set_ne _ _ _ _ h]

theorem Tree.contains_set (t : Tree) (k i : String) (v : Tree) :
    ((t.set k v).contains i = true) ↔ (t.contains i = true ∨ i = k) := by
  by_cases h : i = k
  · subst h
    unfold Tree.contains
    rw [Tree.find?_set_self]
    simp
  · unfold Tree.contains
    rw [Tree.find?_set_ne _ _ _ _ h]
    simp [h]

theorem Tree.contains_iff_mem_keys (t : Tree) (k : String) :
    t.contains k = true ↔ k ∈ t.keys := by
  unfold Tree.contains Tree.find? Tree.keys
  rw [Option.isSome_map', List.find?_isSome]
  constructor
  · rintro ⟨p, hp, he⟩
    simp only [beq_iff_eq] at he
    exact he ▸ List.mem_map_of_mem Prod.fst hp
  · intro hk
    rcases List.mem_map.mp hk with ⟨p, hp, he⟩
    exact ⟨p, hp, by simp [he]⟩

theorem Tree.find?_mem (t : Tree) (k : String) (v : Tree) (h : t.find? k = some v) :
    (k, v) ∈ t.children := by
  unfold Tree.find? at h
  rcases Option.map_eq_some'.mp h with ⟨p, hp, he⟩
  have hk : (p.1 == k) = true := @List.find?_some _ (fun p => p.1 == k) p t.children hp
  simp only [beq_iff_eq] at hk
  have := List.mem_of_find?_eq_some hp
  rcases p with ⟨a, b⟩
  simp only at hk he
  subst hk
  subst he
  exact this

theorem Tree.keys_set_of_contains (t : Tree) (k : String) (v : Tree)
    (h : t.contains k = true) : (t.set k v).keys = t.keys := by
  unfold Tree.set Tree.keys
  simp only [h, if_true]
  show (t.children.map _).map Prod.fst = _
  rw [List.map_map]
  apply List.map_congr_left
  intro p _
  by_cases hp : p.1 = k <;> simp [Function.comp, hp]

theorem Tree.keys_set_of_not_contains (t : Tree) (k : String) (v : Tree)
    (h : ¬ t.contains k = true) : (t.set k v).keys = t.keys ++ [k] := by
  unfold Tree.set Tree.keys
  simp only [h, if_false]
  show (t.children ++ [(k, v)]).map Prod.fst = _
  rw [List.map_append]
  rfl

/-- Adding targets with a fold of `tr[d] = tree{}` writes: membership. -/
theorem foldl_set_contains (l : List String) (t : Tree) (i : String) :
    ((l.foldl (fun t d => t.set d Tree.empty) t).contains i = true)
      ↔ (t.contains i = true ∨ i ∈ l) := by
  induction l generalizing t with
  | nil => simp
  | cons d rest ih =>
      simp only [List.foldl_cons, ih, Tree.contains_set, List.mem_cons]
      tauto

theorem dropCommon_self (l : List String) : dropCommon l l = ([], []) := by
  induction l with
  | nil => rfl
  | cons a as ih => simp [dropCommon, ih]

theorem rel_self (p : String) : rel p p = some "." := by
  unfold rel
  simp [dropCommon_self]

theorem subdir_self (p : String) : subdir p p = some "." := by
  unfold subdir
  rw [rel_self]
  have : ¬ ((("." : String).length > 1) ∧ ("." : String).take 2 = "..") := by decide
  simp [this]

theorem underMod_self (p : String) : underMod p p = true := by
  unfold underMod
  rw [subdir_self]
  rfl

/-- The concrete `sortkeys` evaluation shared by the C4 counterexample
and the amended C4 theorem. -/
theorem sortkeys_starFoo :
    sortkeys (Tree.node [("*Foo", Tree.empty), ("Foo", Tree.empty)]) = ["*Foo", "Foo"] := by
  rfl

/-! ## C4 — canonical sort order -/

/-- C4 (counterexample): for the tree holding exactly the keys `"*Foo"`
and `"Foo"` (inserted in that order), `sortkeys` does NOT yield `"Foo"`
before `"*Foo"`: the trimmed keys tie and the untrimmed tie-break has
`"*Foo" < "Foo"` (`'*'` is 0x2A, `'F'` is 0x46). -/
theorem C4_counterexample :
    sortkeys (Tree.node [("*Foo", Tree.empty), ("Foo", Tree.empty)]) ≠ ["Foo", "*Foo"] := by
  rw [sortkeys_starFoo]
  decide

/-- C4 (amended): `sortkeys` orders each level by comparing keys after
stripping leading and trailing `*`, `(`, `)` characters, with ties
broken by the original unstripped string (the order `canonOrd`), and it
returns exactly the non-empty keys; concretely, for a tree containing
exactly the keys `"*Foo"` and `"Foo"` (inserted in that order), it
yields `"*Foo"` before `"Foo"`. -/
theorem C4_sortkeys_canonical :
    (∀ t : Tree, (sortkeys t).Sorted canonOrd ∧
        (sortkeys t).Perm (t.keys.filter (fun k => !(k == "")))) ∧
    sortkeys (Tree.node [("*Foo", Tree.empty), ("Foo", Tree.empty)]) = ["*Foo", "Foo"] := by
  constructor
  · intro t
    exact ⟨List.sorted_insertionSort canonOrd _, List.perm_insertionSort canonOrd _⟩
  · exact sortkeys_starFoo

/-! ## C10 — `subdir` error behaviour -/

/-- C10: `subdir(base, targ)` errors exactly when the relative path
cannot be computed or has length greater than one and starts with the
two characters `".."`; in particular `subdir(base, base)` returns `"."`
with no error, so a directory equal to the module root itself counts as
inside the module (`underMod`) and `defs4refs` keeps it as a
referencer. -/
theorem C10_subdir_error_characterization :
    (∀ base targ : String,
        subdir base targ = none ↔
          (rel base targ = none ∨
            ∃ r, rel base targ = some r ∧ r.length > 1 ∧ r.take 2 = "..")) ∧
    (∀ base : String, subdir base base = some ".") ∧
    (∀ dirmod : String, underMod dirmod dirmod = true) ∧
    (∀ (dirmod ref : String) (defs imps t : Tree),
        (resolveRef dirmod defs imps ref (Tree.node [(dirmod, t)])).isSome = true) := by
  refine ⟨?_, subdir_self, underMod_self, ?_⟩
  · intro base targ
    unfold subdir
    cases h : rel base targ with
    | none => simp
    | some r =>
        by_cases hc : r.length > 1 ∧ r.take 2 = ".."
        · simp [hc]
        · simp only [hc, if_false]
          constructor
          · intro he
            exact absurd he (Option.some_ne_none r)
          · rintro (he | ⟨r', he, hr'⟩)
            · exact absurd he (Option.some_ne_none r)
            · rw [Option.some_inj] at he
              exact absurd (he ▸ hr') hc
  · intro dirmod ref defs imps t
    unfold resolveRef
    have hftr : (Tree.node [(dirmod, t)]).children.filter (fun p => underMod dirmod p.1)
        = [(dirmod, t)] := by
      simp [Tree.children, underMod_self]
    rw [hftr]
    by_cases h : defs.contains ref = true <;> simp [h, Tree.size, Tree.children]

/-! ## C2 — cross-referencing resolves in-module referencers to
definition directories -/

/-- C2: with `Definitions["pkg.X"] = {D1}` and
`References["pkg.X"] = {D2, D3}` where `D2 = "/mod/D2"` is under the
module root `"/mod"` and `D3 = "/ext/D3"` is not, `defs4refs` rewrites
the references tree to exactly `{pkg.X: {D2: {D1}}}`: `D3` is dropped
as a referencer and the only produced edge is `D2 → D1`. -/
theorem C2_cross_reference :
    defs4refs "/mod"
      (Tree.node [("pkg.X", Tree.node [("/mod/D1", Tree.empty)])])
      Tree.empty
      (Tree.node [("pkg.X",
        Tree.node [("/mod/D2", Tree.empty), ("/ext/D3", Tree.empty)])])
    = Tree.node [("pkg.X",
        Tree.node [("/mod/D2", Tree.node [("/mod/D1", Tree.empty)])])] := by
  rfl

/-! ## C8 — signature formatting -/

theorem fieldTypes_eq_spec (fs : List Field) : fieldTypes fs = specFieldTypes fs := by
  unfold fieldTypes specFieldTypes
  have step : ∀ (fs : List Field) (acc : List String),
      fs.foldl (fun tps f => (tps ++ [f.typ]) ++ List.replicate (f.names.length - 1) f.typ) acc
        = acc ++ fs.flatMap (fun f => List.replicate (max 1 f.names.length) f.typ) := by
    intro fs
    induction fs with
    | nil => intro acc; simp
    | cons f rest ih =>
        intro acc
        rw [List.foldl_cons, ih, List.flatMap_cons, ← List.append_assoc]
        congr 1
        have : List.replicate (max 1 f.names.length) f.typ
            = f.typ :: List.replicate (f.names.length - 1) f.typ := by
          have hm : max 1 f.names.length = (f.names.length - 1) + 1 := by omega
          rw [hm, List.replicate_succ]
        rw [this]
        simp
  simpa using step fs []

/-- The first `signature` implementation (visitor.go lines 452-482)
agrees with the claimed formatting rule `specSignature` on every
function type. -/
theorem C8_signature_spec (fnc : FuncType) : signature fnc = specSignature fnc := by
  unfold signature specSignature
  cases hr : fnc.results with
  | none => simp [fieldTypes_eq_spec]
  | some rs =>
      simp only [fieldTypes_eq_spec]
      cases hts : specFieldTypes rs with
      | nil => simp
      | cons r rest =>
          cases rest with
          | nil => simp only [String.append_assoc]
          | cons r2 rest2 => simp only [String.append_assoc]

/-- C8 counterexample: the second `signature` implementation cited by
the claim (visitor.go lines 901-929) does not follow the claimed
format: a two-result function renders with a doubled space before the
parenthesized result list, and a single result whose type text
contains a comma is parenthesized too instead of the claimed
`" " ++ type`. -/
theorem C8_counterexample :
    signature2 ⟨[⟨[], "p"⟩], some [⟨[], "a"⟩, ⟨[], "b"⟩]⟩ = "(p)  (a, b)" ∧
    specSignature ⟨[⟨[], "p"⟩], some [⟨[], "a"⟩, ⟨[], "b"⟩]⟩ = "(p) (a, b)" ∧
    ¬ signature2 ⟨[⟨[], "p"⟩], some [⟨[], "a"⟩, ⟨[], "b"⟩]⟩
        = specSignature ⟨[⟨[], "p"⟩], some [⟨[], "a"⟩, ⟨[], "b"⟩]⟩ ∧
    signature2 ⟨[⟨[], "p"⟩], some [⟨[], "func(a, b int)"⟩]⟩ = "(p)  (func(a, b int))" ∧
    specSignature ⟨[⟨[], "p"⟩], some [⟨[], "func(a, b int)"⟩]⟩ = "(p) func(a, b int)" := by
  refine ⟨rfl, rfl, ?_, rfl, rfl⟩
  decide

/-- C8 (amended): the first `signature` implementation (visitor.go
lines 452-482) renders exactly the claimed format — the parenthesized
comma-joined parameter types, then an empty suffix, `" "` plus the
bare result type, or `" ("` plus the comma-joined result types plus
`")"` by result-type count, an `n`-name field contributing its type
`n` times; the second implementation (visitor.go lines 901-929)
instead appends a space to the parameter part whenever the joined
result string is non-empty and wraps the result string in
`" (" ... ")"` exactly when it contains a comma, so multi-result
functions render with a doubled space and a lone comma-containing
result type is parenthesized as well. -/
theorem C8_signatures_characterization (fnc : FuncType) :
    signature fnc = specSignature fnc ∧ signature2 fnc = specSignature2 fnc := by
  refine ⟨C8_signature_spec fnc, ?_⟩
  unfold signature2 specSignature2 typelist
  cases hr : fnc.results with
  | none => simp [fieldTypes_eq_spec]
  | some rs => simp [fieldTypes_eq_spec]

/-! ## C7 — unresolved symbols resolve through non-module imports -/

/-- C7: for a reference key with at least one in-module referencer left
after filtering and no Definitions entry, `resolveRef` keeps the entry
and gives every remaining referencer exactly the import directories of
the key's package prefix that are not under the module root (plus any
targets it already had); import directories under the module root are
not added. -/
theorem C7_import_resolution
    (dirmod ref : String) (defs imps abss : Tree)
    (hdef : defs.contains ref = false)
    (hkept : (abss.children.filter (fun p => underMod dirmod p.1)).length ≠ 0) :
    ∃ t, resolveRef dirmod defs imps ref abss = some t ∧
      t.children = (abss.children.filter (fun p => underMod dirmod p.1)).map
        (fun p => (p.1,
          (((imps.findD (cutBeforeDot ref)).keys.filter
              (fun i => !(underMod dirmod i))).foldl
            (fun t d => t.set d Tree.empty) p.2))) ∧
      ∀ rt : Tree, ∀ i : String,
        ((((imps.findD (cutBeforeDot ref)).keys.filter
            (fun i => !(underMod dirmod i))).foldl
          (fun t d => t.set d Tree.empty) rt).contains i = true ↔
          (rt.contains i = true ∨
            (i ∈ (imps.findD (cutBeforeDot ref)).keys ∧ underMod dirmod i = false))) := by
  obtain ⟨cs⟩ := abss
  simp only [Tree.children] at hkept ⊢
  unfold resolveRef
  simp only [Tree.size, Tree.children]
  rw [if_neg hkept]
  simp only [hdef, Bool.false_eq_true, if_false]
  refine ⟨_, rfl, rfl, ?_⟩
  intro rt i
  rw [foldl_set_contains]
  constructor
  · rintro (h | h)
    · exact Or.inl h
    · rcases List.mem_filter.mp h with ⟨h1, h2⟩
      simp only [Bool.not_eq_true'] at h2
      exact Or.inr ⟨h1, by simpa using h2⟩
  · rintro (h | ⟨h1, h2⟩)
    · exact Or.inl h
    · refine Or.inr (List.mem_filter.mpr ⟨h1, ?_⟩)
      simp [h2]

/-- C7 witness: the theorem applied at a concrete state (module root
`/mod`, reference `fmt.Println` from `/mod/app`, import `fmt` provided
by `/goroot/src/fmt` outside the module and `/mod/vendorfmt` inside). -/
theorem C7_import_resolution_witness :
    ∃ t, resolveRef "/mod" Tree.empty
        (Tree.node [("fmt",
          Tree.node [("/goroot/src/fmt", Tree.empty), ("/mod/vendorfmt", Tree.empty)])])
        "fmt.Println" (Tree.node [("/mod/app", Tree.empty)]) = some t ∧
      t.children = ((Tree.node [("/mod/app", Tree.empty)]).children.filter
          (fun p => underMod "/mod" p.1)).map
        (fun p => (p.1,
          ((((Tree.node [("fmt",
              Tree.node [("/goroot/src/fmt", Tree.empty),
                ("/mod/vendorfmt", Tree.empty)])]).findD
                (cutBeforeDot "fmt.Println")).keys.filter
              (fun i => !(underMod "/mod" i))).foldl
            (fun t d => t.set d Tree.empty) p.2))) ∧
      ∀ rt : Tree, ∀ i : String,
        (((((Tree.node [("fmt",
            Tree.node [("/goroot/src/fmt", Tree.empty),
              ("/mod/vendorfmt", Tree.empty)])]).findD
              (cutBeforeDot "fmt.Println")).keys.filter
            (fun i => !(underMod "/mod" i))).foldl
          (fun t d => t.set d Tree.empty) rt).contains i = true ↔
          (rt.contains i = true ∨
            (i ∈ ((Tree.node [("fmt",
              Tree.node [("/goroot/src/fmt", Tree.empty),
                ("/mod/vendorfmt", Tree.empty)])]).findD
                (cutBeforeDot "fmt.Println")).keys ∧
              underMod "/mod" i = false))) := by
  exact C7_import_resolution "/mod" "fmt.Println" Tree.empty
    (Tree.node [("fmt",
      Tree.node [("/goroot/src/fmt", Tree.empty), ("/mod/vendorfmt", Tree.empty)])])
    (Tree.node [("/mod/app", Tree.empty)]) (by rfl) (by decide)

/-! ## C3 — interface satisfaction -/

theorem Tree.keys_length (t : Tree) : t.keys.length = t.size := by
  unfold Tree.keys Tree.size
  exact List.length_map _ _

theorem countPresent_le_length (flds : Tree) (l : List String) :
    countPresent flds l ≤ l.length := by
  induction l with
  | nil => simp [countPresent]
  | cons x xs ihx =>
      simp only [countPresent, List.length_cons]
      by_cases hx : flds.contains x = true
      · rw [if_pos hx]
        omega
      · rw [if_neg hx]
        omega

theorem countPresent_eq_length (flds : Tree) (l : List String) :
    countPresent flds l = l.length ↔ ∀ m ∈ l, flds.contains m = true := by
  induction l with
  | nil => simp [countPresent]
  | cons m rest ih =>
      simp only [countPresent, List.length_cons]
      by_cases h : flds.contains m = true
      · simp only [h, if_true]
        rw [Nat.add_right_cancel_iff, ih]
        simp [h]
      · rw [if_neg h]
        constructor
        · intro h0
          have := countPresent_le_length flds rest
          omega
        · intro hall
          exact absurd (hall m (List.mem_cons_self m rest)) h

theorem lfind_of_mem_nodup (cs : List (String × Tree)) (k : String) (v : Tree)
    (hnd : (cs.map Prod.fst).Nodup) (hmem : (k, v) ∈ cs) :
    cs.find? (fun p => p.1 == k) = some (k, v) := by
  induction cs with
  | nil => simp at hmem
  | cons p rest ih =>
      rcases List.mem_cons.mp hmem with h | h
      · subst h
        exact @List.find?_cons_of_pos _ (fun p => p.1 == k) (k, v) rest (by simp)
      · have hk : k ∈ rest.map Prod.fst := by
          exact List.mem_map_of_mem Prod.fst h
        have hp : ¬ (p.1 = k) := by
          intro he
          have := (List.nodup_cons.mp hnd).1
          exact this (he ▸ hk)
        rw [@List.find?_cons_of_neg _ (fun p => p.1 == k) p rest (by simp [hp])]
        exact ih (List.nodup_cons.mp hnd).2 h

theorem Tree.findD_of_mem_nodup (t : Tree) (k : String) (v : Tree)
    (hnd : t.keys.Nodup) (hmem : (k, v) ∈ t.children) : t.findD k = v := by
  unfold Tree.findD Tree.find?
  rw [lfind_of_mem_nodup t.children k v hnd hmem]
  rfl

/-- The branching child expression of `add` equals `findD`. -/
theorem add_child_eq_findD (t : Tree) (k : String) :
    (if t.contains k then t.findD k else Tree.empty) = t.findD k := by
  by_cases h : (t.contains k : Prop)
  · rw [if_pos h]
  · rw [if_neg h]
    have hn : t.find? k = none :=
      Option.not_isSome_iff_eq_none.mp (by simpa [Tree.contains] using h)
    unfold Tree.findD
    rw [hn]
    rfl

/-- Membership in the two-level `add(sets, ifc, typ)` write. -/
theorem add2_contains (sets : Tree) (i t I T : String) :
    (((add sets [i, t]).findD I).contains T = true)
      ↔ ((sets.findD I).contains T = true ∨ (I = i ∧ T = t)) := by
  show (((sets.set i _).findD I).contains T = true) ↔ _
  by_cases hI : I = i
  · subst hI
    rw [Tree.findD_set_self]
    show ((((if sets.contains I then sets.findD I else Tree.empty)).set t _).contains T = true) ↔ _
    rw [add_child_eq_findD]
    rw [Tree.contains_set]
    simp
  · rw [Tree.findD_set_ne _ _ _ _ hI]
    simp [hI]

/-- The inner interface loop of `satisfy`: which pairs get recorded. -/
theorem satisfy_inner_contains (tpK : String) (flds : Tree)
    (ics : List (String × Tree)) (sets : Tree) (I T : String) :
    (((ics.foldl (fun sets ip =>
        if countPresent flds ip.2.keys = ip.2.size then add sets [ip.1, tpK] else sets)
      sets).findD I).contains T = true)
      ↔ ((sets.findD I).contains T = true ∨
          ∃ ip ∈ ics, ip.1 = I ∧ tpK = T ∧ countPresent flds ip.2.keys = ip.2.size) := by
  induction ics generalizing sets with
  | nil => simp
  | cons ip rest ih =>
      simp only [List.foldl_cons]
      by_cases hc : countPresent flds ip.2.keys = ip.2.size
      · rw [if_pos hc, ih, add2_contains]
        constructor
        · rintro ((h | ⟨h1, h2⟩) | ⟨q, hq, h1, h2, h3⟩)
          · exact Or.inl h
          · exact Or.inr ⟨ip, List.mem_cons_self _ _, h1.symm, h2.symm, hc⟩
          · exact Or.inr ⟨q, List.mem_cons_of_mem _ hq, h1, h2, h3⟩
        · rintro (h | ⟨q, hq, h1, h2, h3⟩)
          · exact Or.inl (Or.inl h)
          · rcases List.mem_cons.mp hq with he | he
            · subst he
              exact Or.inl (Or.inr ⟨h1.symm, h2.symm⟩)
            · exact Or.inr ⟨q, he, h1, h2, h3⟩
      · rw [if_neg hc, ih]
        constructor
        · rintro (h | ⟨q, hq, h1, h2, h3⟩)
          · exact Or.inl h
          · exact Or.inr ⟨q, List.mem_cons_of_mem _ hq, h1, h2, h3⟩
        · rintro (h | ⟨q, hq, h1, h2, h3⟩)
          · exact Or.inl h
          · rcases List.mem_cons.mp hq with he | he
            · subst he
              exact absurd h3 hc
            · exact Or.inr ⟨q, he, h1, h2, h3⟩

/-- Which pairs `satisfy` records, over both loops. -/
theorem satisfy_contains (typs ifcs sets : Tree) (I T : String) :
    (((satisfy typs ifcs sets).findD I).contains T = true)
      ↔ ((sets.findD I).contains T = true ∨
          ∃ tp ∈ typs.children, tp.1 = T ∧
            ∃ ip ∈ ifcs.children, ip.1 = I ∧
              countPresent tp.2 ip.2.keys = ip.2.size) := by
  unfold satisfy
  induction typs.children generalizing sets with
  | nil => simp
  | cons tp rest ih =>
      simp only [List.foldl_cons]
      rw [ih, satisfy_inner_contains]
      constructor
      · rintro ((h | ⟨q, hq, h1, h2, h3⟩) | ⟨p, hp, h1, q, hq, h2, h3⟩)
        · exact Or.inl h
        · exact Or.inr ⟨tp, List.mem_cons_self _ _, h2, q, hq, h1, h3⟩
        · exact Or.inr ⟨p, List.mem_cons_of_mem _ hp, h1, q, hq, h2, h3⟩
      · rintro (h | ⟨p, hp, h1, q, hq, h2, h3⟩)
        · exact Or.inl (Or.inl h)
        · rcases List.mem_cons.mp hp with he | he
          · subst he
            exact Or.inl (Or.inr ⟨q, hq, h2, h1, h3⟩)
          · exact Or.inr ⟨p, he, h1, q, hq, h2, h3⟩

/-- Keys are unchanged by a fold of member writes into one interface. -/
theorem foldl_set_ifc_keys (i : String) (l : List String) (st : Tree)
    (h : i ∈ st.keys) :
    ((l.foldl (fun st m => st.set i ((st.findD i).set m Tree.empty)) st).keys = st.keys) := by
  induction l generalizing st with
  | nil => rfl
  | cons m rest ih =>
      simp only [List.foldl_cons]
      have hc : st.contains i = true := (Tree.contains_iff_mem_keys st i).mpr h
      have hk := Tree.keys_set_of_contains st i ((st.findD i).set m Tree.empty) hc
      rw [ih _ (hk ▸ h), hk]

theorem expandStep_keys (st : Tree) (i : String) (h : i ∈ st.keys) :
    (expandStep st i).keys = st.keys := by
  unfold expandStep
  generalize (st.findD i).keys = ms
  induction ms generalizing st with
  | nil => rfl
  | cons m rest ih =>
      simp only [List.foldl_cons]
      by_cases hm : (m.data.contains '(' : Prop)
      · rw [if_pos hm]
        exact ih st h
      · rw [if_neg hm]
        have hc : st.contains i = true := (Tree.contains_iff_mem_keys st i).mpr h
        have hk1 := Tree.keys_set_of_contains st i ((st.findD i).erase m) hc
        have h1 : i ∈ (st.set i ((st.findD i).erase m)).keys := hk1 ▸ h
        have hk2 := foldl_set_ifc_keys i
          (((st.set i ((st.findD i).erase m)).findD m).keys)
          (st.set i ((st.findD i).erase m)) h1
        rw [ih _ (by rw [hk2, hk1]; exact h), hk2, hk1]

theorem expandIfcs_keys (ifcs : Tree) : (expandIfcs ifcs).keys = ifcs.keys := by
  unfold expandIfcs
  have aux : ∀ (l : List String) (st : Tree), (∀ j ∈ l, j ∈ st.keys) →
      (l.foldl expandStep st).keys = st.keys := by
    intro l
    induction l with
    | nil => intro st _; rfl
    | cons a rest ih =>
        intro st hmem
        simp only [List.foldl_cons]
        have ha := expandStep_keys st a (hmem a (List.mem_cons_self _ _))
        rw [ih _ (fun j hj => ha ▸ hmem j (List.mem_cons_of_mem _ hj)), ha]
  exact aux ifcs.keys ifcs (fun _ hj => hj)

/-- C3: after `typesets`, a type `T` is recorded under an interface `I`
in the implements tree exactly when `I` and `T` exist and every member
of the expanded method set of `I` occurs verbatim among `T`'s
descriptors; concretely, for `I = {"M()"}` the type with `{"M()"}` is
recorded and the type with `{}` is not, and an interface `J` embedding
`I` plus `"N()"` records exactly the types carrying both `"M()"` and
`"N()"`. -/
theorem C3_implements_iff :
    (∀ typs ifcs : Tree, typs.keys.Nodup → ifcs.keys.Nodup →
      ∀ T I : String,
        ((((typesets typs ifcs).2).findD I).contains T = true ↔
          (I ∈ ifcs.keys ∧ T ∈ typs.keys ∧
            ∀ m ∈ (((typesets typs ifcs).1).findD I).keys,
              (typs.findD T).contains m = true))) ∧
    (((typesets
        (Tree.node [("pkg.T1", Tree.node [("M()", Tree.empty)]),
          ("pkg.T2", Tree.empty)])
        (Tree.node [("pkg.I", Tree.node [("M()", Tree.empty)])])).2.findD
          "pkg.I").contains "pkg.T1" = true) ∧
    (((typesets
        (Tree.node [("pkg.T1", Tree.node [("M()", Tree.empty)]),
          ("pkg.T2", Tree.empty)])
        (Tree.node [("pkg.I", Tree.node [("M()", Tree.empty)])])).2.findD
          "pkg.I").contains "pkg.T2" = false) ∧
    (((typesets
        (Tree.node [("pkg.TMN", Tree.node [("M()", Tree.empty), ("N()", Tree.empty)]),
          ("pkg.TM", Tree.node [("M()", Tree.empty)])])
        (Tree.node [("pkg.I", Tree.node [("M()", Tree.empty)]),
          ("pkg.J", Tree.node [("pkg.I", Tree.empty), ("N()", Tree.empty)])])).2.findD
          "pkg.J").contains "pkg.TMN" = true) ∧
    (((typesets
        (Tree.node [("pkg.TMN", Tree.node [("M()", Tree.empty), ("N()", Tree.empty)]),
          ("pkg.TM", Tree.node [("M()", Tree.empty)])])
        (Tree.node [("pkg.I", Tree.node [("M()", Tree.empty)]),
          ("pkg.J", Tree.node [("pkg.I", Tree.empty), ("N()", Tree.empty)])])).2.findD
          "pkg.J").contains "pkg.TM" = false) := by
  refine ⟨?_, rfl, rfl, rfl, rfl⟩
  intro typs ifcs hT hI T I
  have hkeys : ((typesets typs ifcs).1).keys = ifcs.keys := expandIfcs_keys ifcs
  have hI' : ((typesets typs ifcs).1).keys.Nodup := hkeys ▸ hI
  show (((satisfy typs (expandIfcs ifcs) Tree.empty).findD I).contains T = true) ↔ _
  rw [satisfy_contains]
  have hemp : ((Tree.empty.findD I).contains T) = false := rfl
  rw [hemp]
  simp only [Bool.false_eq_true, false_or]
  constructor
  · rintro ⟨tp, htp, h1, ip, hip, h2, h3⟩
    have hipm : (I, ip.2) ∈ ((typesets typs ifcs).1).children := by
      have : ip = (ip.1, ip.2) := rfl
      rw [← h2]
      exact this ▸ hip
    have htpm : (T, tp.2) ∈ typs.children := by
      have : tp = (tp.1, tp.2) := rfl
      rw [← h1]
      exact this ▸ htp
    refine ⟨?_, ?_, ?_⟩
    · rw [← hkeys]
      exact h2 ▸ List.mem_map_of_mem Prod.fst hip
    · exact h1 ▸ List.mem_map_of_mem Prod.fst htp
    · have hfd : ((typesets typs ifcs).1).findD I = ip.2 :=
        Tree.findD_of_mem_nodup _ _ _ hI' hipm
      have hfdT : typs.findD T = tp.2 := Tree.findD_of_mem_nodup _ _ _ hT htpm
      rw [hfd, hfdT]
      rw [← Tree.keys_length] at h3
      exact (countPresent_eq_length tp.2 ip.2.keys).mp h3
  · rintro ⟨hIk, hTk, hsub⟩
    rw [← hkeys] at hIk
    rcases List.mem_map.mp hIk with ⟨ip, hip, hipf⟩
    rcases List.mem_map.mp hTk with ⟨tp, htp, htpf⟩
    have hipm : (I, ip.2) ∈ ((typesets typs ifcs).1).children := by
      rw [← hipf]
      exact (rfl : ip = (ip.1, ip.2)) ▸ hip
    have htpm : (T, tp.2) ∈ typs.children := by
      rw [← htpf]
      exact (rfl : tp = (tp.1, tp.2)) ▸ htp
    have hfd : ((typesets typs ifcs).1).findD I = ip.2 :=
      Tree.findD_of_mem_nodup _ _ _ hI' hipm
    have hfdT : typs.findD T = tp.2 := Tree.findD_of_mem_nodup _ _ _ hT htpm
    refine ⟨tp, htp, htpf, ip, hip, hipf, ?_⟩
    rw [← Tree.keys_length]
    apply (countPresent_eq_length tp.2 ip.2.keys).mpr
    intro m hm
    have := hsub m (hfd ▸ hm)
    exact hfdT ▸ this

/-- C3 witness: the general satisfaction law applied to the embedding
scenario (`J` embeds `I` and adds `"N()"`; the type with both members
satisfies `J`). -/
theorem C3_implements_iff_witness :
    ((typesets
        (Tree.node [("pkg.TMN", Tree.node [("M()", Tree.empty), ("N()", Tree.empty)]),
          ("pkg.TM", Tree.node [("M()", Tree.empty)])])
        (Tree.node [("pkg.I", Tree.node [("M()", Tree.empty)]),
          ("pkg.J", Tree.node [("pkg.I", Tree.empty), ("N()", Tree.empty)])])).2.findD
          "pkg.J").contains "pkg.TMN" = true ↔
      ("pkg.J" ∈ (Tree.node [("pkg.I", Tree.node [("M()", Tree.empty)]),
          ("pkg.J", Tree.node [("pkg.I", Tree.empty), ("N()", Tree.empty)])]).keys ∧
        "pkg.TMN" ∈ (Tree.node [("pkg.TMN",
            Tree.node [("M()", Tree.empty), ("N()", Tree.empty)]),
          ("pkg.TM", Tree.node [("M()", Tree.empty)])]).keys ∧
        ∀ m ∈ (((typesets
            (Tree.node [("pkg.TMN", Tree.node [("M()", Tree.empty), ("N()", Tree.empty)]),
              ("pkg.TM", Tree.node [("M()", Tree.empty)])])
            (Tree.node [("pkg.I", Tree.node [("M()", Tree.empty)]),
              ("pkg.J", Tree.node [("pkg.I", Tree.empty), ("N()", Tree.empty)])])).1).findD
              "pkg.J").keys,
          ((Tree.node [("pkg.TMN", Tree.node [("M()", Tree.empty), ("N()", Tree.empty)]),
            ("pkg.TM", Tree.node [("M()", Tree.empty)])]).findD "pkg.TMN").contains m
            = true) :=
  C3_implements_iff.1
    (Tree.node [("pkg.TMN", Tree.node [("M()", Tree.empty), ("N()", Tree.empty)]),
      ("pkg.TM", Tree.node [("M()", Tree.empty)])])
    (Tree.node [("pkg.I", Tree.node [("M()", Tree.empty)]),
      ("pkg.J", Tree.node [("pkg.I", Tree.empty), ("N()", Tree.empty)])])
    (by decide) (by decide) "pkg.TMN" "pkg.J"

/-! ## C9 — the versioned-path locator -/

theorem sorted_getLast_ge (l : List String) (h : l ≠ [])
    (hs : l.Sorted strLe) : ∀ w ∈ l, strLe w (l.getLast h) := by
  induction l with
  | nil => exact absurd rfl h
  | cons a rest ih =>
      intro w hw
      cases rest with
      | nil =>
          rcases List.mem_singleton.mp hw with he
          subst he
          exact @IsRefl.refl String strLe _ w
      | cons b bs =>
          rw [List.getLast_cons (by simp)]
          rcases List.mem_cons.mp hw with he | hm
          · subst he
            have ha : strLe w b := (List.sorted_cons.mp hs).1 b (by simp)
            have hb := ih (by simp) (List.sorted_cons.mp hs).2 b (by simp)
            exact @IsTrans.trans String strLe _ _ _ _ ha hb
          · exact ih (by simp) (List.sorted_cons.mp hs).2 w hm

/-- C9 (counterexample): a path under the cache root with no versioned
sibling directory at any ancestor level resolves to the empty string,
NOT to the unversioned path. -/
theorem C9_counterexample :
    verspath
      [("/gp/pkg/mod/github.com/zosmac", ["gocore", "godep"]),
       ("/gp/pkg/mod/github.com", ["zosmac"])]
      "/gp/pkg/mod" "/gp/pkg/mod/github.com/zosmac/gocore" = "" ∧
    ("" : String) ≠ "/gp/pkg/mod/github.com/zosmac/gocore" := by
  exact ⟨rfl, by decide⟩

/-- C9 (amended): `verspath` climbs from the path towards the cache
root; at the first level where sibling `base@version` directories
exist it returns the path rebuilt through the lexicographically
greatest version suffix with the remaining subpath re-appended, it
climbs past unreadable or versionless levels, it stops with `""` at
the cache root, and when no level anywhere offers a versioned sibling
the result is the empty string (not the unversioned path); concretely,
with `gocore@v1.11.0` and `gocore@v1.2.3` present, `.../gocore/sub`
resolves through `gocore@v1.2.3` keeping `sub`. -/
theorem C9_verspath_characterization :
    (∀ (fs : List (String × List String)) (dirimps pth rem : String) (fuel : Nat),
        pathDir pth = dirimps → verspathGo fs dirimps (fuel + 1) pth rem = "") ∧
    (∀ (fs : List (String × List String)) (dirimps pth rem : String) (fuel : Nat)
        (ents : List String),
        ¬ pathDir pth = dirimps → readDir fs (pathDir pth) = some ents →
        versOf ents (pathBase pth) ≠ [] →
        ∃ v ∈ versOf ents (pathBase pth),
          (∀ w ∈ versOf ents (pathBase pth), strLe w v) ∧
          verspathGo fs dirimps (fuel + 1) pth rem
            = pathJoin (pathJoin (pathDir pth) (pathBase pth ++ "@" ++ v)) rem) ∧
    (∀ (fs : List (String × List String)) (dirimps pth rem : String) (fuel : Nat),
        ¬ pathDir pth = dirimps →
        (readDir fs (pathDir pth) = none ∨
          ∃ ents, readDir fs (pathDir pth) = some ents ∧
            versOf ents (pathBase pth) = []) →
        verspathGo fs dirimps (fuel + 1) pth rem
          = verspathGo fs dirimps fuel (pathDir pth) (pathJoin (pathBase pth) rem)) ∧
    (∀ (fuel : Nat) (fs : List (String × List String)) (dirimps pth rem : String),
        (∀ (q : String) (ents : List String),
          readDir fs (pathDir q) = some ents → versOf ents (pathBase q) = []) →
        verspathGo fs dirimps fuel pth rem = "") ∧
    (verspath
      [("/gp/pkg/mod/github.com/zosmac", ["gocore@v1.11.0", "gocore@v1.2.3", "godep"])]
      "/gp/pkg/mod" "/gp/pkg/mod/github.com/zosmac/gocore/sub"
      = "/gp/pkg/mod/github.com/zosmac/gocore@v1.2.3/sub") := by
  refine ⟨?_, ?_, ?_, ?_, rfl⟩
  · intro fs dirimps pth rem fuel h
    simp only [verspathGo]
    rw [if_pos h]
  · intro fs dirimps pth rem fuel ents hdir hread hvers
    have hperm : (sortStrings (versOf ents (pathBase pth))).Perm
        (versOf ents (pathBase pth)) :=
      List.perm_insertionSort strLe _
    have hne : sortStrings (versOf ents (pathBase pth)) ≠ [] := by
      intro he
      have hp := hperm
      rw [he] at hp
      exact hvers hp.symm.eq_nil
    have hmem : ∀ x, x ∈ sortStrings (versOf ents (pathBase pth))
        ↔ x ∈ versOf ents (pathBase pth) := fun x => hperm.mem_iff
    refine ⟨(sortStrings (versOf ents (pathBase pth))).getLast hne, ?_, ?_, ?_⟩
    · exact (hmem _).mp (List.getLast_mem hne)
    · intro w hw
      exact sorted_getLast_ge _ hne (List.sorted_insertionSort strLe _) w
        ((hmem w).mpr hw)
    · simp only [verspathGo]
      rw [if_neg hdir, hread]
      exact dif_pos hne
  · intro fs dirimps pth rem fuel hdir hnone
    simp only [verspathGo]
    rw [if_neg hdir]
    rcases hnone with h | ⟨ents, hread, hvers⟩
    · rw [h]
    · rw [hread]
      have hsv : sortStrings (versOf ents (pathBase pth)) = [] := by
        rw [hvers]
        rfl
      exact dif_neg (fun hc => hc hsv)
  · intro fuel
    induction fuel with
    | zero => intro fs dirimps pth rem _; rfl
    | succ n ih =>
        intro fs dirimps pth rem hq
        simp only [verspathGo]
        by_cases hdir : pathDir pth = dirimps
        · rw [if_pos hdir]
        · rw [if_neg hdir]
          cases hread : readDir fs (pathDir pth) with
          | none => exact ih fs dirimps (pathDir pth) (pathJoin (pathBase pth) rem) hq
          | some ents =>
              have hv : versOf ents (pathBase pth) = [] := hq pth ents hread
              have hsv : sortStrings (versOf ents (pathBase pth)) = [] := by
                rw [hv]
                rfl
              exact Eq.trans (dif_neg (fun hc => hc hsv))
                (ih fs dirimps (pathDir pth) (pathJoin (pathBase pth) rem) hq)

/-- C9 witness: the version-selection conjunct applied at the concrete
cache level holding `gocore@v1.11.0` and `gocore@v1.2.3`. -/
theorem C9_verspath_characterization_witness :
    ∃ v ∈ versOf ["gocore@v1.11.0", "gocore@v1.2.3", "godep"]
        (pathBase "/gp/pkg/mod/github.com/zosmac/gocore"),
      (∀ w ∈ versOf ["gocore@v1.11.0", "gocore@v1.2.3", "godep"]
          (pathBase "/gp/pkg/mod/github.com/zosmac/gocore"), strLe w v) ∧
      verspathGo
        [("/gp/pkg/mod/github.com/zosmac", ["gocore@v1.11.0", "gocore@v1.2.3", "godep"])]
        "/gp/pkg/mod" (7 + 1) "/gp/pkg/mod/github.com/zosmac/gocore" "sub"
        = pathJoin (pathJoin (pathDir "/gp/pkg/mod/github.com/zosmac/gocore")
            (pathBase "/gp/pkg/mod/github.com/zosmac/gocore" ++ "@" ++ v)) "sub" :=
  C9_verspath_characterization.2.1
    [("/gp/pkg/mod/github.com/zosmac", ["gocore@v1.11.0", "gocore@v1.2.3", "godep"])]
    "/gp/pkg/mod" "/gp/pkg/mod/github.com/zosmac/gocore" "sub" 7
    ["gocore@v1.11.0", "gocore@v1.2.3", "godep"]
    (by decide) (by decide) (by decide)

/-! ## C6 — the edge skip guard -/

theorem placeAbs_edges (cfg : Cfg) (st : GState) (abs : String) :
    ∀ dm : List (String × Tag), ((placeAbs cfg st abs dm).2).edges = st.edges := by
  intro dm
  induction dm with
  | nil => rfl
  | cons e rest ih =>
      rcases e with ⟨pth, tg⟩
      simp only [placeAbs]
      cases hs : subdir pth abs with
      | none => exact ih
      | some pkg =>
          dsimp only
          by_cases hg : (subdir cfg.dirmod abs).isSome ∧ pth = cfg.dirimps
          · rw [if_pos hg]
            exact ih
          · rw [if_neg hg]

/-- C6: for each resolved reference edge processed by `refStep` (the
per-target step of `nodegraph`'s loop), no edge statement is added when
the endpoint node labels coincide; when the module root differs from
the standard root, none is added when neither endpoint order is 2
(Module); and when the module root equals the standard root that
second filter is disabled — distinct labels always yield the edge
statement, with the direction/port/color computed by the source's
swap rule. -/
theorem C6_edge_guard (cfg : Cfg) (dm : List (String × Tag)) (st : GState)
    (r : Nat) (rnode : String) (rnd : Option String) (dabs : String) :
    ((placeAbs cfg st dabs dm).1.2.1 = rnode →
      (refStep cfg dm st r rnode rnd dabs).edges = st.edges) ∧
    (¬ cfg.dirmod = cfg.dirstd → ¬ (placeAbs cfg st dabs dm).1.1 = 2 → ¬ r = 2 →
      (refStep cfg dm st r rnode rnd dabs).edges = st.edges) ∧
    (cfg.dirmod = cfg.dirstd → ¬ (placeAbs cfg st dabs dm).1.2.1 = rnode →
      (refStep cfg dm st r rnode rnd dabs).edges =
        st.edges.set
          (edgeStmt
            (if r < (placeAbs cfg st dabs dm).1.1 ∨
                (r = (placeAbs cfg st dabs dm).1.1 ∧
                  strLt rnode (placeAbs cfg st dabs dm).1.2.1 = true)
              then rnode else (placeAbs cfg st dabs dm).1.2.1)
            (if r < (placeAbs cfg st dabs dm).1.1 ∨
                (r = (placeAbs cfg st dabs dm).1.1 ∧
                  strLt rnode (placeAbs cfg st dabs dm).1.2.1 = true)
              then (placeAbs cfg st dabs dm).1.2.1 else rnode)
            (portsFor (placeAbs cfg st dabs dm).1.1 r)
            (if r < (placeAbs cfg st dabs dm).1.1 ∨
                (r = (placeAbs cfg st dabs dm).1.1 ∧
                  strLt rnode (placeAbs cfg st dabs dm).1.2.1 = true)
              then "forward" else "back"))
          Tree.empty) := by
  have hedges := placeAbs_edges cfg st dabs dm
  rcases hpl : placeAbs cfg st dabs dm with ⟨⟨d, dnode, dnd⟩, st'⟩
  rw [hpl] at hedges
  unfold refStep
  rw [hpl]
  simp only []
  refine ⟨?_, ?_, ?_⟩
  · intro h
    rw [if_pos (Or.inl h)]
    exact hedges
  · intro h1 h2 h3
    rw [if_pos (Or.inr ⟨h1, h2, h3⟩)]
    exact hedges
  · intro hmod hne
    rw [if_neg ?hcond]
    case hcond =>
      rintro (h | ⟨h1, _⟩)
      · exact hne h
      · exact h1 hmod
    show (st'.edges.set _ Tree.empty) = _
    rw [hedges]

/-- C6 witness: all three guard conjuncts at concrete inputs (std→std
suppressed when the module root differs from the standard root; the
same edge emitted in whole-of-standard-library mode; equal labels
always suppressed). -/
theorem C6_edge_guard_witness :
    ((refStep ⟨"/go/src", "/gp/pkg/mod", "/mod", "m"⟩
        (dirmapEntries ⟨"/go/src", "/gp/pkg/mod", "/mod", "m"⟩)
        (initState ⟨"/go/src", "/gp/pkg/mod", "/mod", "m"⟩)
        1 "std: fmt" none "/go/src/fmt").edges
      = (initState ⟨"/go/src", "/gp/pkg/mod", "/mod", "m"⟩).edges) ∧
    ((refStep ⟨"/go/src", "/gp/pkg/mod", "/mod", "m"⟩
        (dirmapEntries ⟨"/go/src", "/gp/pkg/mod", "/mod", "m"⟩)
        (initState ⟨"/go/src", "/gp/pkg/mod", "/mod", "m"⟩)
        1 "std: io" none "/go/src/fmt").edges
      = (initState ⟨"/go/src", "/gp/pkg/mod", "/mod", "m"⟩).edges) ∧
    ((refStep ⟨"/go/src", "/gp", "/go/src", "std"⟩
        (dirmapEntries ⟨"/go/src", "/gp", "/go/src", "std"⟩)
        (initState ⟨"/go/src", "/gp", "/go/src", "std"⟩)
        1 "std: io" none "/go/src/fmt").edges
      = (initState ⟨"/go/src", "/gp", "/go/src", "std"⟩).edges.set
          (edgeStmt
            (if 1 < (placeAbs ⟨"/go/src", "/gp", "/go/src", "std"⟩
                (initState ⟨"/go/src", "/gp", "/go/src", "std"⟩) "/go/src/fmt"
                (dirmapEntries ⟨"/go/src", "/gp", "/go/src", "std"⟩)).1.1 ∨
                (1 = (placeAbs ⟨"/go/src", "/gp", "/go/src", "std"⟩
                    (initState ⟨"/go/src", "/gp", "/go/src", "std"⟩) "/go/src/fmt"
                    (dirmapEntries ⟨"/go/src", "/gp", "/go/src", "std"⟩)).1.1 ∧
                  strLt "std: io" (placeAbs ⟨"/go/src", "/gp", "/go/src", "std"⟩
                    (initState ⟨"/go/src", "/gp", "/go/src", "std"⟩) "/go/src/fmt"
                    (dirmapEntries ⟨"/go/src", "/gp", "/go/src", "std"⟩)).1.2.1 = true)
              then "std: io"
              else (placeAbs ⟨"/go/src", "/gp", "/go/src", "std"⟩
                (initState ⟨"/go/src", "/gp", "/go/src", "std"⟩) "/go/src/fmt"
                (dirmapEntries ⟨"/go/src", "/gp", "/go/src", "std"⟩)).1.2.1)
            (if 1 < (placeAbs ⟨"/go/src", "/gp", "/go/src", "std"⟩
                (initState ⟨"/go/src", "/gp", "/go/src", "std"⟩) "/go/src/fmt"
                (dirmapEntries ⟨"/go/src", "/gp", "/go/src", "std"⟩)).1.1 ∨
                (1 = (placeAbs ⟨"/go/src", "/gp", "/go/src", "std"⟩
                    (initState ⟨"/go/src", "/gp", "/go/src", "std"⟩) "/go/src/fmt"
                    (dirmapEntries ⟨"/go/src", "/gp", "/go/src", "std"⟩)).1.1 ∧
                  strLt "std: io" (placeAbs ⟨"/go/src", "/gp", "/go/src", "std"⟩
                    (initState ⟨"/go/src", "/gp", "/go/src", "std"⟩) "/go/src/fmt"
                    (dirmapEntries ⟨"/go/src", "/gp", "/go/src", "std"⟩)).1.2.1 = true)
              then (placeAbs ⟨"/go/src", "/gp", "/go/src", "std"⟩
                (initState ⟨"/go/src", "/gp", "/go/src", "std"⟩) "/go/src/fmt"
                (dirmapEntries ⟨"/go/src", "/gp", "/go/src", "std"⟩)).1.2.1
              else "std: io")
            (portsFor (placeAbs ⟨"/go/src", "/gp", "/go/src", "std"⟩
                (initState ⟨"/go/src", "/gp", "/go/src", "std"⟩) "/go/src/fmt"
                (dirmapEntries ⟨"/go/src", "/gp", "/go/src", "std"⟩)).1.1 1)
            (if 1 < (placeAbs ⟨"/go/src", "/gp", "/go/src", "std"⟩
                (initState ⟨"/go/src", "/gp", "/go/src", "std"⟩) "/go/src/fmt"
                (dirmapEntries ⟨"/go/src", "/gp", "/go/src", "std"⟩)).1.1 ∨
                (1 = (placeAbs ⟨"/go/src", "/gp", "/go/src", "std"⟩
                    (initState ⟨"/go/src", "/gp", "/go/src", "std"⟩) "/go/src/fmt"
                    (dirmapEntries ⟨"/go/src", "/gp", "/go/src", "std"⟩)).1.1 ∧
                  strLt "std: io" (placeAbs ⟨"/go/src", "/gp", "/go/src", "std"⟩
                    (initState ⟨"/go/src", "/gp", "/go/src", "std"⟩) "/go/src/fmt"
                    (dirmapEntries ⟨"/go/src", "/gp", "/go/src", "std"⟩)).1.2.1 = true)
              then "forward" else "back"))
          Tree.empty) :=
  ⟨(C6_edge_guard ⟨"/go/src", "/gp/pkg/mod", "/mod", "m"⟩
      (dirmapEntries ⟨"/go/src", "/gp/pkg/mod", "/mod", "m"⟩)
      (initState ⟨"/go/src", "/gp/pkg/mod", "/mod", "m"⟩)
      1 "std: fmt" none "/go/src/fmt").1 (by decide),
   (C6_edge_guard ⟨"/go/src", "/gp/pkg/mod", "/mod", "m"⟩
      (dirmapEntries ⟨"/go/src", "/gp/pkg/mod", "/mod", "m"⟩)
      (initState ⟨"/go/src", "/gp/pkg/mod", "/mod", "m"⟩)
      1 "std: io" none "/go/src/fmt").2.1 (by decide) (by decide) (by decide),
   (C6_edge_guard ⟨"/go/src", "/gp", "/go/src", "std"⟩
      (dirmapEntries ⟨"/go/src", "/gp", "/go/src", "std"⟩)
      (initState ⟨"/go/src", "/gp", "/go/src", "std"⟩)
      1 "std: io" none "/go/src/fmt").2.2 (by decide) (by decide)⟩

/-! ## C5: traversal and emission machinery -/

theorem tsize_pos (t : Tree) : 1 ≤ t.tsize := by
  obtain ⟨cs⟩ := t
  show 1 ≤ tsizeL cs + 1
  exact Nat.le_add_left 1 (tsizeL cs)

theorem tsizeL_mem (cs : List (String × Tree)) (p : String × Tree) (hp : p ∈ cs) :
    p.2.tsize ≤ tsizeL cs := by
  induction cs with
  | nil => cases hp
  | cons q rest ih =>
      obtain ⟨k, c⟩ := q
      rcases List.mem_cons.mp hp with h | h
      · subst h
        show c.tsize ≤ c.tsize + tsizeL rest
        exact Nat.le_add_right _ _
      · calc p.2.tsize ≤ tsizeL rest := ih h
          _ ≤ c.tsize + tsizeL rest := Nat.le_add_left _ _

theorem mem_sortAssoc (cs : List (String × Tree)) (p : String × Tree)
    (hp : p ∈ sortAssoc cs) : p ∈ cs :=
  List.mem_of_mem_filter
    ((List.Perm.mem_iff (List.perm_insertionSort _ _)).mp hp)

theorem flatMap_congr {α β : Type} (l : List α) (f g : α → List β)
    (h : ∀ a ∈ l, f a = g a) : l.flatMap f = l.flatMap g := by
  induction l with
  | nil => rfl
  | cons x xs ih =>
      simp only [List.flatMap_cons]
      rw [h x (List.mem_cons_self x xs), ih (fun a ha => h a (List.mem_cons_of_mem x ha))]

theorem emit_node (cs : List (String × Tree)) :
    emit (Tree.node cs) = (sortAssoc cs).flatMap (fun p => p.1 :: emitF (tsizeL cs) p.2) :=
  rfl

theorem emitF_eq_emit : ∀ n, ∀ t : Tree, t.tsize ≤ n → emitF n t = emit t := by
  intro n
  induction n using Nat.strong_induction_on with
  | _ n ih =>
    intro t ht
    obtain ⟨cs⟩ := t
    have hts : tsizeL cs + 1 ≤ n := ht
    cases n with
    | zero => omega
    | succ m =>
        show (sortAssoc cs).flatMap (fun p => p.1 :: emitF m p.2) = emit (Tree.node cs)
        rw [emit_node]
        refine flatMap_congr _ _ _ (fun p hp => ?_)
        have hsz : p.2.tsize ≤ tsizeL cs := tsizeL_mem cs p (mem_sortAssoc cs p hp)
        have h1 : emitF m p.2 = emit p.2 :=
          ih m (Nat.lt_succ_self m) p.2 (le_trans hsz (by omega))
        have h2 : emitF (tsizeL cs) p.2 = emit p.2 :=
          ih (tsizeL cs) (by omega) p.2 hsz
        rw [h1, h2]

theorem emit_eq (t : Tree) :
    emit t = (sortAssoc t.children).flatMap (fun p => p.1 :: emit p.2) := by
  obtain ⟨cs⟩ := t
  rw [emit_node]
  exact flatMap_congr _ _ _ (fun p hp =>
    by rw [emitF_eq_emit (tsizeL cs) p.2 (tsizeL_mem cs p (mem_sortAssoc cs p hp))])

theorem emit_empty : emit Tree.empty = [] := rfl

/-! ## C5: token-class lemmas -/

theorem isOpenTok_of_data (s : String) (c : Char) (rest : List Char)
    (h : s.data = c :: ("\nsubgraph ".data ++ rest)) : isOpenTok s = true := by
  have hlen : ("\nsubgraph ".data).length = 10 := rfl
  simp only [isOpenTok, h, List.drop_one, List.tail_cons]
  rw [List.take_append_of_le_length (by rw [hlen]), List.take_of_length_le (by rw [hlen])]
  exact beq_self_eq_true _

theorem isOpenTok_of_data_ne (s : String) (c d : Char) (rest : List Char)
    (h : s.data = c :: d :: rest) (hd : ¬ d = '\n') : isOpenTok s = false := by
  have key : (s.data.drop 1).take 10 = d :: List.take 9 rest := by rw [h]; rfl
  simp only [isOpenTok, key]
  refine Bool.eq_false_iff.mpr (fun hbeq => ?_)
  have heq := eq_of_beq hbeq
  exact hd (by simpa using congrArg List.head? heq)

theorem isOpenTok_of_data_ne2 (s : String) (c d e : Char) (rest : List Char)
    (h : s.data = c :: d :: e :: rest) (he : ¬ e = 's') : isOpenTok s = false := by
  have key : (s.data.drop 1).take 10 = d :: e :: List.take 8 rest := by rw [h]; rfl
  simp only [isOpenTok, key]
  refine Bool.eq_false_iff.mpr (fun hbeq => ?_)
  have heq := eq_of_beq hbeq
  exact he (by simpa using congrArg (fun l => l.tail.head?) heq)

theorem data_subgtmpl (c : Char) (n b l e : String) :
    (subgtmpl c n b l e).data =
      c :: ("\nsubgraph ".data ++ ((goQuote n
        ++ " \x7b cluster=true fontcolor=black bgcolor=" ++ goQuote b
        ++ " label=" ++ goQuote l ++ " " ++ e)).data) := by
  simp [subgtmpl, String.data_append, String.singleton]

theorem isOpenTok_subgtmpl (c : Char) (n b l e : String) :
    isOpenTok (subgtmpl c n b l e) = true :=
  isOpenTok_of_data _ c _ (data_subgtmpl c n b l e)

theorem isOpenTok_graphStmt (cfg : Cfg) (tg : Tag) :
    isOpenTok (graphStmt cfg tg) = true := by
  cases tg <;> exact isOpenTok_subgtmpl _ _ _ _ _

theorem isOpenTok_sgStmt (pkg : String) : isOpenTok (sgStmt pkg) = true :=
  isOpenTok_subgtmpl _ _ _ _ _

theorem data_nodetmpl (name col label : String) :
    (nodetmpl name col label).data =
      ' ' :: '\n' :: '"' :: (name.data ++ "\" [fillcolor=\"".data ++ col.data
        ++ "\" label=\"".data ++ label.data ++ "\" tooltip=\"".data) := by
  simp [nodetmpl, goQuote, String.data_append]

theorem isOpenTok_nodetmpl (name col label : String) :
    isOpenTok (nodetmpl name col label) = false :=
  isOpenTok_of_data_ne2 _ ' ' '\n' '"' _ (data_nodetmpl name col label) (by decide)

theorem data_tooltipKey (label : String) :
    (tooltipKey label).data = ' ' :: (label.data ++ ['\\', 'n']) := by
  have h1 : " ".data = [' '] := rfl
  have h2 : "\\n".data = ['\\', 'n'] := rfl
  simp [tooltipKey, String.data_append, h1, h2]

theorem isOpenTok_tooltipKey (label : String) (h : goodLabel label = true) :
    isOpenTok (tooltipKey label) = false := by
  cases hld : label.data with
  | nil =>
      exact isOpenTok_of_data_ne _ ' ' '\\' ['n'] (by rw [data_tooltipKey, hld]; rfl) (by decide)
  | cons c rest =>
      have hc : ¬ c = '\n' := by
        simp only [goodLabel, hld] at h
        simpa using h
      exact isOpenTok_of_data_ne _ ' ' c (rest ++ ['\\', 'n'])
        (by rw [data_tooltipKey, hld]; rfl) hc

theorem belowClose_of_head (s : String) (c : Char) (rest : List Char)
    (h : s.data = c :: rest) (h1 : isMark c = false) (h2 : c.toNat < 0x7F) :
    belowClose s = true := by
  simp [belowClose, h, h1, h2]

theorem belowClose_subgtmpl0 (n b l e : String) :
    belowClose (subgtmpl (Char.ofNat 0) n b l e) = true :=
  belowClose_of_head _ _ _ (data_subgtmpl _ n b l e) (by decide) (by decide)

theorem belowClose_sgStmt (pkg : String) : belowClose (sgStmt pkg) = true :=
  belowClose_subgtmpl0 _ _ _ _

theorem belowClose_nodetmpl (name col label : String) :
    belowClose (nodetmpl name col label) = true :=
  belowClose_of_head _ _ _ (data_nodetmpl name col label) (by decide) (by decide)

theorem belowClose_tooltipKey (label : String) :
    belowClose (tooltipKey label) = true :=
  belowClose_of_head _ _ _ (data_tooltipKey label) (by decide) (by decide)

theorem ne_closeSubg_of_open (k : String) (h : isOpenTok k = true) : ¬ k = closeSubg := by
  intro he
  rw [he] at h
  exact absurd h (by decide)

theorem ne_closeSubg_of_below (k : String) (h : belowClose k = true) : ¬ k = closeSubg := by
  intro he
  rw [he] at h
  exact absurd h (by decide)

theorem closeNode_flat : isOpenTok closeNode = false ∧ ¬ closeNode = closeSubg :=
  ⟨by decide, by decide⟩

theorem nobrack_empty : NoBrack Tree.empty :=
  NoBrack.mk [] (by intro p hp; cases hp) (by intro p hp; cases hp) (by intro p hp; cases hp)

theorem nobrack_closedNode : NoBrack closedNode := by
  refine NoBrack.mk [(closeNode, Tree.empty)] ?_ ?_ ?_ <;> intro p hp <;>
    rw [List.mem_singleton] at hp <;> subst hp
  · exact closeNode_flat.1
  · exact closeNode_flat.2
  · exact nobrack_empty

/-! ## C5: balance counts of matched sequences -/

theorem matched_opens_eq : ∀ {l : List String}, Matched l → opensIn l = closesIn l := by
  intro l h
  induction h with
  | nil => rfl
  | @flat k l hop hne _ ih =>
      simp only [opensIn, closesIn, List.countP_cons, hop, beq_eq_false_iff_ne.mpr hne] at ih ⊢
      omega
  | @node k body rest hop _ _ ihb ihr =>
      have h1 : (closeSubg == closeSubg) = true := beq_self_eq_true _
      have h2 : isOpenTok closeSubg = false := by decide
      have hnk : (k == closeSubg) = false :=
        beq_eq_false_iff_ne.mpr (ne_closeSubg_of_open k hop)
      simp only [opensIn, closesIn] at ihb ihr
      simp [opensIn, closesIn, List.countP_cons, List.countP_append, hop, h1, h2, hnk]
      omega

theorem matched_prefix : ∀ {l : List String}, Matched l →
    ∀ i, closesIn (l.take i) ≤ opensIn (l.take i) := by
  intro l h
  induction h with
  | nil => intro i; simp [opensIn, closesIn]
  | @flat k l hop hne _ ih =>
      intro i
      cases i with
      | zero => simp [opensIn, closesIn]
      | succ m =>
          rw [List.take_succ_cons]
          have := ih m
          simp only [opensIn, closesIn] at this ⊢
          simp [List.countP_cons, hop, beq_eq_false_iff_ne.mpr hne]
          omega
  | @node k body rest hop hmb _ ihb ihr =>
      intro i
      cases i with
      | zero => simp [opensIn, closesIn]
      | succ m =>
          rw [List.take_succ_cons, List.take_append_eq_append_take]
          have hnk : (k == closeSubg) = false :=
            beq_eq_false_iff_ne.mpr (ne_closeSubg_of_open k hop)
          by_cases hm : m ≤ body.length
          · have h0 : m - body.length = 0 := by omega
            rw [h0, List.take_zero, List.append_nil]
            have := ihb m
            simp only [opensIn, closesIn] at this ⊢
            simp [List.countP_cons, hop, hnk]
            omega
          · rw [List.take_of_length_le (by omega),
              show m - body.length = (m - body.length - 1) + 1 by omega,
              List.take_succ_cons]
            have h1 : (closeSubg == closeSubg) = true := beq_self_eq_true _
            have h2 : isOpenTok closeSubg = false := by decide
            have hb := matched_opens_eq hmb
            have hr := ihr (m - body.length - 1)
            simp only [opensIn, closesIn] at hb hr ⊢
            simp [List.countP_cons, List.countP_append, hop, hnk, h1, h2]
            omega

/-! ## C5: the close sentinel sorts last -/

theorem dropWhile_append_nonmark : ∀ (m : List Char) (c : Char), isMark c = false →
    ∃ m', (m ++ [c]).dropWhile isMark = m' ++ [c] := by
  intro m c hc
  induction m with
  | nil => exact ⟨[], by simp [List.dropWhile_cons, hc]⟩
  | cons x rest ih =>
      by_cases hx : isMark x
      · obtain ⟨m', hm'⟩ := ih
        exact ⟨m', by simp [List.dropWhile_cons, hx, hm']⟩
      · exact ⟨x :: rest, by simp [List.dropWhile_cons, hx]⟩

theorem trimMarks_head (c : Char) (l : List Char) (hc : isMark c = false) :
    ∃ l', ((((c :: l).dropWhile isMark).reverse.dropWhile isMark)).reverse = c :: l' := by
  have h1 : (c :: l).dropWhile isMark = c :: l := by simp [List.dropWhile_cons, hc]
  obtain ⟨m', hm'⟩ := dropWhile_append_nonmark l.reverse c hc
  refine ⟨m'.reverse, ?_⟩
  rw [h1, List.reverse_cons, hm', List.reverse_append]
  rfl

theorem canonOrd_below_close (k : String) (h : belowClose k = true) :
    canonOrd k closeSubg := by
  left
  show charListLt (trimMarks k).data (trimMarks closeSubg).data = true
  rw [show trimMarks closeSubg = closeSubg from rfl]
  cases hkd : k.data with
  | nil =>
      have hk : (trimMarks k).data = [] := by
        show ((((k.data).dropWhile isMark).reverse.dropWhile isMark)).reverse = []
        rw [hkd]
        rfl
      rw [hk]
      rfl
  | cons c rest =>
      have hc : isMark c = false ∧ c.toNat < 0x7F := by
        simpa [belowClose, hkd] using h
      obtain ⟨l', hl'⟩ := trimMarks_head c rest hc.1
      have hk : (trimMarks k).data = c :: l' := by
        show ((((k.data).dropWhile isMark).reverse.dropWhile isMark)).reverse = c :: l'
        rw [hkd]
        exact hl'
      rw [hk, show closeSubg.data = '\x7F' :: ['\n', '\x7d'] from rfl]
      show (if c.toNat < '\x7F'.toNat then true
        else if '\x7F'.toNat < c.toNat then false else charListLt l' ['\n', '\x7d']) = true
      exact if_pos hc.2

theorem count_map_fst (cs : List (String × Tree)) (k : String) :
    (cs.map Prod.fst).count k = cs.countP (fun p => p.1 == k) := by
  induction cs with
  | nil => rfl
  | cons x rest ih =>
      simp only [List.map_cons, List.count_cons, List.countP_cons, ih]

theorem countP_filter_empty (cs : List (String × Tree)) :
    (cs.filter (fun p => !(p.1 == ""))).countP (fun p => p.1 == closeSubg) =
      cs.countP (fun p => p.1 == closeSubg) := by
  induction cs with
  | nil => rfl
  | cons x rest ih =>
      by_cases hx : x.1 = ""
      · have h1 : (x.1 == "") = true := beq_iff_eq.mpr hx
        have h2 : (x.1 == closeSubg) = false := by
          refine beq_eq_false_iff_ne.mpr ?_
          rw [hx]
          decide
        simp [List.filter_cons, h1, List.countP_cons, h2, ih]
      · have h1 : (x.1 == "") = false := beq_eq_false_iff_ne.mpr hx
        simp [List.filter_cons, h1, List.countP_cons, ih]

theorem sortAssoc_countP_close (cs : List (String × Tree))
    (h : (cs.map Prod.fst).count closeSubg = 1) :
    (sortAssoc cs).countP (fun p => p.1 == closeSubg) = 1 := by
  rw [show sortAssoc cs = List.insertionSort (fun a b => canonOrd a.1 b.1)
      (cs.filter (fun p => !(p.1 == ""))) from rfl,
    (List.perm_insertionSort (fun a b => canonOrd a.1 b.1)
      (cs.filter (fun p => !(p.1 == "")))).countP_eq,
    countP_filter_empty, ← count_map_fst, h]

instance : IsTotal (String × Tree) (fun a b => canonOrd a.1 b.1) :=
  ⟨fun a b => IsTotal.total a.1 b.1⟩

instance : IsTrans (String × Tree) (fun a b => canonOrd a.1 b.1) :=
  ⟨fun _ _ _ h1 h2 => IsTrans.trans _ _ _ h1 h2⟩

theorem sortAssoc_sorted (cs : List (String × Tree)) :
    List.Sorted (fun a b => canonOrd a.1 b.1) (sortAssoc cs) :=
  List.sorted_insertionSort _ _

theorem sorted_close_decomp : ∀ l : List (String × Tree),
    List.Sorted (fun a b => canonOrd a.1 b.1) l →
    l.countP (fun p => p.1 == closeSubg) = 1 →
    (∀ p ∈ l, p.1 = closeSubg → p.2 = Tree.empty) →
    (∀ p ∈ l, ¬ p.1 = closeSubg → belowClose p.1 = true) →
    ∃ front, l = front ++ [(closeSubg, Tree.empty)] ∧ ∀ p ∈ front, ¬ p.1 = closeSubg := by
  intro l
  induction l with
  | nil => intro _ hc _ _; simp [List.countP_nil] at hc
  | cons x rest ih =>
      intro hs hc hval hbel
      rw [List.sorted_cons] at hs
      by_cases hx : x.1 = closeSubg
      · have hrest : rest = [] := by
          cases rest with
          | nil => rfl
          | cons y rest' =>
              exfalso
              have hy1 : canonOrd x.1 y.1 := hs.1 y (List.mem_cons_self _ _)
              have hc0 : ((y :: rest').countP (fun p => p.1 == closeSubg)) = 0 := by
                rw [List.countP_cons, beq_iff_eq.mpr hx] at hc
                simpa using hc
              have hy : ¬ y.1 = closeSubg := by
                rw [List.countP_cons] at hc0
                intro he
                rw [beq_iff_eq.mpr he] at hc0
                simp at hc0
              have hyb : belowClose y.1 = true := hbel y (by simp) hy
              have hy2 : canonOrd y.1 closeSubg := canonOrd_below_close _ hyb
              rw [hx] at hy1
              exact hy (antisymm hy2 hy1)
        subst hrest
        have hx2 : x.2 = Tree.empty := hval x (by simp) hx
        refine ⟨[], ?_, by intro p hp; cases hp⟩
        rw [show x = (closeSubg, Tree.empty) from Prod.ext_iff.mpr ⟨hx, hx2⟩]
        rfl
      · have hcr : rest.countP (fun p => p.1 == closeSubg) = 1 := by
          rw [List.countP_cons, beq_eq_false_iff_ne.mpr hx] at hc
          simpa using hc
        obtain ⟨front', hfr, hfp⟩ := ih hs.2 hcr
          (fun p hp h => hval p (List.mem_cons_of_mem _ hp) h)
          (fun p hp h => hbel p (List.mem_cons_of_mem _ hp) h)
        refine ⟨x :: front', by rw [hfr]; rfl, ?_⟩
        intro p hp
        rcases List.mem_cons.mp hp with h | h
        · rw [h]; exact hx
        · exact hfp p h

theorem sortAssoc_close_last (cs : List (String × Tree))
    (hcount : (cs.map Prod.fst).count closeSubg = 1)
    (hval : ∀ p ∈ cs, p.1 = closeSubg → p.2 = Tree.empty)
    (hbel : ∀ p ∈ cs, ¬ p.1 = closeSubg → belowClose p.1 = true) :
    ∃ front, sortAssoc cs = front ++ [(closeSubg, Tree.empty)] ∧
      (∀ p ∈ front, p ∈ cs ∧ ¬ p.1 = closeSubg) := by
  obtain ⟨front, hfr, hfp⟩ := sorted_close_decomp (sortAssoc cs) (sortAssoc_sorted cs)
    (sortAssoc_countP_close cs hcount)
    (fun p hp h => hval p (mem_sortAssoc cs p hp) h)
    (fun p hp h => hbel p (mem_sortAssoc cs p hp) h)
  exact ⟨front, hfr, fun p hp =>
    ⟨mem_sortAssoc cs p (by rw [hfr]; exact List.mem_append_left _ hp), hfp p hp⟩⟩

theorem wfsub_closedSubg : WFsub closedSubg := by
  refine WFsub.mk [(closeSubg, Tree.empty)] ?_ ?_ ?_ ?_
  · decide
  · intro p hp _
    rw [List.mem_singleton] at hp
    rw [hp]
  · intro p hp hne
    rw [List.mem_singleton] at hp
    exact absurd (by rw [hp]) hne
  · intro p hp hne
    rw [List.mem_singleton] at hp
    exact absurd (by rw [hp]) hne

/-! ## C5: well-formedness preservation toolkit -/

theorem find?_none_of_not_contains (t : Tree) (k : String)
    (hc : ¬ t.contains k = true) : t.find? k = none := by
  cases hf : t.find? k with
  | none => rfl
  | some w =>
      exfalso
      apply hc
      unfold Tree.contains
      rw [hf]
      rfl

theorem mem_set_cases (t : Tree) (k : String) (v : Tree) (q : String × Tree)
    (hq : q ∈ (t.set k v).children) : q = (k, v) ∨ (q ∈ t.children ∧ ¬ q.1 = k) := by
  by_cases hc : t.contains k
  · rw [show (t.set k v).children
        = t.children.map (fun p => if p.1 == k then (k, v) else p) from by
          simp [Tree.set, hc, Tree.children]] at hq
    rcases List.mem_map.mp hq with ⟨p, hp, he⟩
    by_cases hpk : p.1 = k
    · left
      rw [← he, if_pos (beq_iff_eq.mpr hpk)]
    · right
      rw [← he, if_neg (by simpa using hpk)]
      exact ⟨hp, hpk⟩
  · rw [show (t.set k v).children = t.children ++ [(k, v)] from by
        simp [Tree.set, hc, Tree.children]] at hq
    rcases List.mem_append.mp hq with h | h
    · right
      refine ⟨h, fun he => ?_⟩
      have hnone : t.find? k = none := find?_none_of_not_contains t k hc
      unfold Tree.find? at hnone
      have hall := List.find?_eq_none.mp (Option.map_eq_none'.mp hnone) q h
      simp [he] at hall
    · left
      simpa using h

theorem count_close_set (t : Tree) (k : String) (v : Tree) (hk : ¬ k = closeSubg) :
    (((t.set k v).children.map Prod.fst).count closeSubg)
      = ((t.children.map Prod.fst).count closeSubg) := by
  by_cases hc : t.contains k
  · rw [show (t.set k v).children.map Prod.fst = (t.set k v).keys from rfl,
      Tree.keys_set_of_contains t k v hc]
    rfl
  · rw [show (t.set k v).children.map Prod.fst = (t.set k v).keys from rfl,
      Tree.keys_set_of_not_contains t k v hc]
    rw [List.count_append]
    have : [k].count closeSubg = 0 := by
      simp [List.count_singleton, beq_eq_false_iff_ne.mpr hk]
    rw [this]
    rfl

theorem wfsub_set (t : Tree) (k : String) (v : Tree)
    (ht : WFsub t) (hbk : belowClose k = true) (hok : ChildOK k v) :
    WFsub (t.set k v) := by
  have hkc : ¬ k = closeSubg := ne_closeSubg_of_below k hbk
  refine WFsub.mk ((t.set k v).children) ?_ ?_ ?_ ?_
  · rw [count_close_set t k v hkc]
    obtain ⟨cs, hcnt, _, _, _⟩ := ht
    exact hcnt
  · intro q hq hqc
    rcases mem_set_cases t k v q hq with h | ⟨hm, _⟩
    · rw [h] at hqc
      exact absurd hqc hkc
    · obtain ⟨cs, _, hval, _, _⟩ := ht
      exact hval q hm hqc
  · intro q hq hqc
    rcases mem_set_cases t k v q hq with h | ⟨hm, _⟩
    · rw [h]
      exact hbk
    · obtain ⟨cs, _, _, hbel, _⟩ := ht
      exact hbel q hm hqc
  · intro q hq hqc
    rcases mem_set_cases t k v q hq with h | ⟨hm, _⟩
    · rw [h]
      exact hok
    · obtain ⟨cs, _, _, _, hch⟩ := ht
      exact hch q hm hqc

theorem topwf_set (t : Tree) (k : String) (v : Tree)
    (ht : TopWF t) (hk : isOpenTok k = true) (hv : WFsub v) :
    TopWF (t.set k v) := by
  refine TopWF.mk ((t.set k v).children) ?_ ?_
  · intro q hq
    rcases mem_set_cases t k v q hq with h | ⟨hm, _⟩
    · rw [h]
      exact hk
    · obtain ⟨cs, hop, _⟩ := ht
      exact hop q hm
  · intro q hq
    rcases mem_set_cases t k v q hq with h | ⟨hm, _⟩
    · rw [h]
      exact hv
    · obtain ⟨cs, _, hwf⟩ := ht
      exact hwf q hm

theorem nobrack_set (t : Tree) (k : String) (v : Tree)
    (ht : NoBrack t) (hk : isOpenTok k = false) (hkc : ¬ k = closeSubg) (hv : NoBrack v) :
    NoBrack (t.set k v) := by
  refine NoBrack.mk ((t.set k v).children) ?_ ?_ ?_
  · intro q hq
    rcases mem_set_cases t k v q hq with h | ⟨hm, _⟩
    · rw [h]
      exact hk
    · obtain ⟨cs, h1, _, _⟩ := ht
      exact h1 q hm
  · intro q hq
    rcases mem_set_cases t k v q hq with h | ⟨hm, _⟩
    · rw [h]
      exact hkc
    · obtain ⟨cs, _, h2, _⟩ := ht
      exact h2 q hm
  · intro q hq
    rcases mem_set_cases t k v q hq with h | ⟨hm, _⟩
    · rw [h]
      exact hv
    · obtain ⟨cs, _, _, h3⟩ := ht
      exact h3 q hm

theorem lfind_filter_ne (cs : List (String × Tree)) (k i : String) (h : ¬ i = k) :
    ((cs.filter (fun p => !(p.1 == k))).find? (fun p => p.1 == i))
      = cs.find? (fun p => p.1 == i) := by
  induction cs with
  | nil => rfl
  | cons x rest ih =>
      by_cases hx : x.1 = k
      · have h1 : (!(x.1 == k)) = false := by simp [hx]
        have h2 : (x.1 == i) = false :=
          beq_eq_false_iff_ne.mpr (by rw [hx]; exact fun he => h he.symm)
        rw [List.filter_cons, h1]
        simp only [Bool.false_eq_true, if_false, ih]
        rw [List.find?_cons, h2]
      · have h1 : (!(x.1 == k)) = true := by simp [hx]
        rw [List.filter_cons, h1]
        simp only [if_true]
        rw [List.find?_cons, List.find?_cons]
        cases hxi : (x.1 == i) with
        | true => rfl
        | false => exact ih

theorem find?_erase_ne (t : Tree) (k i : String) (h : ¬ i = k) :
    (t.erase k).find? i = t.find? i := by
  unfold Tree.find? Tree.erase
  rw [show (Tree.node (t.children.filter (fun p => !(p.1 == k)))).children
      = t.children.filter (fun p => !(p.1 == k)) from rfl]
  rw [lfind_filter_ne t.children k i h]

theorem contains_erase_ne (t : Tree) (k i : String) (h : ¬ i = k) :
    (t.erase k).contains i = t.contains i := by
  unfold Tree.contains
  rw [find?_erase_ne t k i h]

theorem count_close_erase (t : Tree) (k : String) (hk : ¬ k = closeSubg) :
    (((t.erase k).children.map Prod.fst).count closeSubg)
      = ((t.children.map Prod.fst).count closeSubg) := by
  rw [show (t.erase k).children = t.children.filter (fun p => !(p.1 == k)) from rfl]
  rw [count_map_fst, count_map_fst]
  induction t.children with
  | nil => rfl
  | cons x rest ih =>
      by_cases hx : x.1 = k
      · have h1 : (!(x.1 == k)) = false := by simp [hx]
        have h2 : (x.1 == closeSubg) = false :=
          beq_eq_false_iff_ne.mpr (by rw [hx]; exact hk)
        simp [List.filter_cons, h1, List.countP_cons, h2, ih]
      · have h1 : (!(x.1 == k)) = true := by simp [hx]
        simp [List.filter_cons, h1, List.countP_cons, ih]

theorem wfsub_erase (t : Tree) (k : String) (ht : WFsub t) (hk : ¬ k = closeSubg) :
    WFsub (t.erase k) := by
  obtain ⟨cs, hcnt, hval, hbel, hch⟩ := ht
  refine WFsub.mk ((Tree.node cs |>.erase k).children) ?_ ?_ ?_ ?_
  · rw [count_close_erase (Tree.node cs) k hk]
    exact hcnt
  · intro q hq hqc
    exact hval q (List.mem_of_mem_filter hq) hqc
  · intro q hq hqc
    exact hbel q (List.mem_of_mem_filter hq) hqc
  · intro q hq hqc
    exact hch q (List.mem_of_mem_filter hq) hqc

theorem childok_of_find (t : Tree) (k : String) (v : Tree) (ht : WFsub t)
    (hf : t.find? k = some v) (hk : ¬ k = closeSubg) : ChildOK k v := by
  have hm : (k, v) ∈ t.children := Tree.find?_mem t k v hf
  obtain ⟨cs, _, _, _, hch⟩ := ht
  exact hch (k, v) hm hk

theorem wfsub_find_open (t : Tree) (k : String) (v : Tree) (ht : WFsub t)
    (hf : t.find? k = some v) (hk : isOpenTok k = true) : WFsub v := by
  have hok := childok_of_find t k v ht hf (ne_closeSubg_of_open k hk)
  cases hok with
  | opn _ hw => exact hw
  | flt hflat _ => rw [hk] at hflat; cases hflat

theorem nobrack_of_find_flat (t : Tree) (k : String) (v : Tree) (ht : WFsub t)
    (hf : t.find? k = some v) (hk : isOpenTok k = false) (hkc : ¬ k = closeSubg) :
    NoBrack v := by
  have hok := childok_of_find t k v ht hf hkc
  cases hok with
  | opn hop _ => rw [hk] at hop; cases hop
  | flt _ hn => exact hn

theorem wfsub_findD_open (t : Tree) (k : String) (ht : WFsub t)
    (hc : t.contains k = true) (hk : isOpenTok k = true) : WFsub (t.findD k) := by
  cases hf : t.find? k with
  | none =>
      exfalso
      unfold Tree.contains at hc
      rw [hf] at hc
      cases hc
  | some v =>
      have : t.findD k = v := by unfold Tree.findD; rw [hf]; rfl
      rw [this]
      exact wfsub_find_open t k v ht hf hk

/-! ## C5: tooltip insertion preserves well-formedness -/

theorem insertUnderT_node (cs : List (String × Tree)) (nd tt : String) :
    (insertUnderT (.node cs) nd tt).1 = .node (insertUnderL cs nd tt).1 := by
  cases hi : insertUnderL cs nd tt with
  | mk cs' f => simp [insertUnderT, hi]

theorem insertUnderT_empty (nd tt : String) :
    (insertUnderT Tree.empty nd tt).1 = Tree.empty := rfl

theorem insRel_refl (nd tt : String) : ∀ l : List (String × Tree),
    List.Forall₂ (InsRel nd tt) l l := by
  intro l
  induction l with
  | nil => exact List.Forall₂.nil
  | cons x rest ih => exact List.Forall₂.cons ⟨rfl, Or.inl rfl⟩ ih

theorem insertUnderL_rel (nd tt : String) : ∀ cs : List (String × Tree),
    List.Forall₂ (InsRel nd tt) cs (insertUnderL cs nd tt).1 := by
  intro cs
  induction cs with
  | nil => exact List.Forall₂.nil
  | cons x rest ih =>
      obtain ⟨k, c⟩ := x
      by_cases hk : k = nd
      · rw [show (insertUnderL ((k, c) :: rest) nd tt).1
            = (k, c.set tt Tree.empty) :: rest from by simp [insertUnderL, hk]]
        exact List.Forall₂.cons ⟨rfl, Or.inr (Or.inl ⟨hk, rfl⟩)⟩ (insRel_refl nd tt rest)
      · cases hrec : insertUnderT c nd tt with
        | mk c' f =>
            cases f with
            | true =>
                rw [show (insertUnderL ((k, c) :: rest) nd tt).1 = (k, c') :: rest from by
                  simp [insertUnderL, hk, hrec]]
                refine List.Forall₂.cons ⟨rfl, Or.inr (Or.inr ?_)⟩ (insRel_refl nd tt rest)
                rw [hrec]
            | false =>
                rw [show (insertUnderL ((k, c) :: rest) nd tt).1
                    = (k, c) :: (insertUnderL rest nd tt).1 from by
                  simp [insertUnderL, hk, hrec]]
                exact List.Forall₂.cons ⟨rfl, Or.inl rfl⟩ ih

theorem forall2_keys {nd tt : String} : ∀ {cs cs' : List (String × Tree)},
    List.Forall₂ (InsRel nd tt) cs cs' → cs.map Prod.fst = cs'.map Prod.fst := by
  intro cs cs' h
  induction h with
  | nil => rfl
  | cons hr _ ih => simp only [List.map_cons, ih, hr.1]

theorem forall2_mem_right {α β : Type} {R : α → β → Prop} :
    ∀ {l : List α} {l' : List β}, List.Forall₂ R l l' → ∀ b ∈ l', ∃ a ∈ l, R a b := by
  intro l l' h
  induction h with
  | nil => intro b hb; cases hb
  | cons hr _ ih =>
      intro b hb
      rcases List.mem_cons.mp hb with h1 | h2
      · exact ⟨_, List.mem_cons_self _ _, h1 ▸ hr⟩
      · obtain ⟨a, ha, hra⟩ := ih b h2
        exact ⟨a, List.mem_cons_of_mem _ ha, hra⟩

theorem insertUnder_keys (t : Tree) (nd tt : String) :
    ((insertUnderT t nd tt).1).keys = t.keys := by
  obtain ⟨cs⟩ := t
  rw [insertUnderT_node]
  exact (forall2_keys (insertUnderL_rel nd tt cs)).symm

theorem contains_of_keys_eq (t t' : Tree) (h : t.keys = t'.keys) (k : String) :
    t.contains k = t'.contains k := by
  rw [Bool.eq_iff_iff, Tree.contains_iff_mem_keys, Tree.contains_iff_mem_keys, h]

theorem insertUnder_pres (nd tt : String)
    (hnd : isOpenTok nd = false) (hndc : ¬ nd = closeSubg)
    (htt : isOpenTok tt = false) (httc : ¬ tt = closeSubg) :
    ∀ n, ∀ t : Tree, t.tsize ≤ n →
      (WFsub t → WFsub (insertUnderT t nd tt).1) ∧
      (NoBrack t → NoBrack (insertUnderT t nd tt).1) ∧
      (TopWF t → TopWF (insertUnderT t nd tt).1) := by
  intro n
  induction n using Nat.strong_induction_on with
  | _ n ih =>
    intro t ht
    obtain ⟨cs⟩ := t
    have hts : tsizeL cs + 1 ≤ n := ht
    rw [insertUnderT_node]
    have hrel := insertUnderL_rel nd tt cs
    have hkeys := forall2_keys hrel
    refine ⟨?_, ?_, ?_⟩
    · intro hwf
      cases hwf with
      | mk cs0 hcnt hv hb hch =>
        refine WFsub.mk _ ?_ ?_ ?_ ?_
        · rw [show ((insertUnderL cs nd tt).1.map Prod.fst) = cs.map Prod.fst from hkeys.symm]
          exact hcnt
        · intro q hq hqc
          obtain ⟨p, hp, hr⟩ := forall2_mem_right hrel q hq
          have hps : p.1 = closeSubg := hr.1.trans hqc
          have hpv : p.2 = Tree.empty := hv p hp hps
          rcases hr.2 with h | ⟨hpn, h⟩ | h
          · rw [h, hpv]
          · exact absurd (by rw [← hpn]; exact hps) hndc
          · rw [h, hpv, insertUnderT_empty]
        · intro q hq hqc
          obtain ⟨p, hp, hr⟩ := forall2_mem_right hrel q hq
          rw [← hr.1] at hqc ⊢
          exact hb p hp hqc
        · intro q hq hqc
          obtain ⟨p, hp, hr⟩ := forall2_mem_right hrel q hq
          rw [← hr.1] at hqc ⊢
          have hpok := hch p hp hqc
          rcases hr.2 with h | ⟨hpn, h⟩ | h
          · rw [h]
            exact hpok
          · rw [h]
            cases hpok with
            | opn hop _ =>
                rw [hpn, hnd] at hop
                cases hop
            | flt hfl hnb =>
                exact ChildOK.flt hfl (nobrack_set p.2 tt Tree.empty hnb htt httc nobrack_empty)
          · rw [h]
            have hih := ih (tsizeL cs) (by omega) p.2 (tsizeL_mem cs p hp)
            cases hpok with
            | opn hop hw => exact ChildOK.opn hop (hih.1 hw)
            | flt hfl hnb => exact ChildOK.flt hfl (hih.2.1 hnb)
    · intro hnb
      cases hnb with
      | mk cs0 h1 h2 h3 =>
        refine NoBrack.mk _ ?_ ?_ ?_
        · intro q hq
          obtain ⟨p, hp, hr⟩ := forall2_mem_right hrel q hq
          rw [← hr.1]
          exact h1 p hp
        · intro q hq
          obtain ⟨p, hp, hr⟩ := forall2_mem_right hrel q hq
          rw [← hr.1]
          exact h2 p hp
        · intro q hq
          obtain ⟨p, hp, hr⟩ := forall2_mem_right hrel q hq
          rcases hr.2 with h | ⟨hpn, h⟩ | h
          · rw [h]
            exact h3 p hp
          · rw [h]
            exact nobrack_set p.2 tt Tree.empty (h3 p hp) htt httc nobrack_empty
          · rw [h]
            have hih := ih (tsizeL cs) (by omega) p.2 (tsizeL_mem cs p hp)
            exact hih.2.1 (h3 p hp)
    · intro htw
      cases htw with
      | mk cs0 h1 h2 =>
        refine TopWF.mk _ ?_ ?_
        · intro q hq
          obtain ⟨p, hp, hr⟩ := forall2_mem_right hrel q hq
          rw [← hr.1]
          exact h1 p hp
        · intro q hq
          obtain ⟨p, hp, hr⟩ := forall2_mem_right hrel q hq
          rcases hr.2 with h | ⟨hpn, h⟩ | h
          · rw [h]
            exact h2 p hp
          · exfalso
            have hop := h1 p hp
            rw [hpn, hnd] at hop
            cases hop
          · rw [h]
            have hih := ih (tsizeL cs) (by omega) p.2 (tsizeL_mem cs p hp)
            exact hih.1 (h2 p hp)

/-! ## C5: statement caches and tooltip wrapper -/

theorem alookup_mem (m : List (String × String)) (k v : String) (h : alookup m k = some v) :
    ∃ q ∈ m, q.2 = v := by
  unfold alookup at h
  rcases Option.map_eq_some'.mp h with ⟨p, hp, he⟩
  exact ⟨p, List.mem_of_find?_eq_some hp, he⟩

theorem ndLookup_inv (nmap : List (String × String)) (nodeKey pkg : String)
    (hn : ∀ p ∈ nmap, isOpenTok p.2 = false ∧ belowClose p.2 = true) :
    (isOpenTok (ndLookup nmap nodeKey pkg).1 = false
      ∧ belowClose (ndLookup nmap nodeKey pkg).1 = true) ∧
    (∀ p ∈ (ndLookup nmap nodeKey pkg).2,
      isOpenTok p.2 = false ∧ belowClose p.2 = true) := by
  unfold ndLookup
  cases hal : alookup nmap nodeKey with
  | some nd =>
      obtain ⟨q, hq, he⟩ := alookup_mem nmap nodeKey nd hal
      exact ⟨he ▸ hn q hq, hn⟩
  | none =>
      refine ⟨⟨isOpenTok_nodetmpl _ _ _, belowClose_nodetmpl _ _ _⟩, ?_⟩
      intro p hp
      rcases List.mem_append.mp hp with h | h
      · exact hn p h
      · rw [List.mem_singleton] at h
        rw [h]
        exact ⟨isOpenTok_nodetmpl _ _ _, belowClose_nodetmpl _ _ _⟩

theorem tooltip_top (t : Tree) (nd : Option String) (label : String)
    (ht : TopWF t)
    (hnd : ∀ s, nd = some s → isOpenTok s = false ∧ belowClose s = true)
    (hl : goodLabel label = true) :
    TopWF (tooltip t nd (tooltipKey label)) ∧
      (tooltip t nd (tooltipKey label)).keys = t.keys := by
  cases nd with
  | none => exact ⟨ht, rfl⟩
  | some s =>
      have hs := hnd s rfl
      have hsc : ¬ s = closeSubg := ne_closeSubg_of_below s hs.2
      have htt : isOpenTok (tooltipKey label) = false := isOpenTok_tooltipKey label hl
      have httc : ¬ tooltipKey label = closeSubg :=
        ne_closeSubg_of_below _ (belowClose_tooltipKey label)
      exact ⟨(insertUnder_pres s _ hs.1 hsc htt httc t.tsize t (le_refl _)).2.2 ht,
        insertUnder_keys t s _⟩

/-! ## C5: the cluster walk preserves well-formedness -/

theorem bool_eq_false_of_not {b : Bool} (h : ¬ b = true) : b = false := by
  cases hb : b
  · rfl
  · exact absurd hb h

theorem wfsub_ensure (tr : Tree) (sg : String) (v : Tree)
    (htr : WFsub tr) (hsg : isOpenTok sg = true) (hsgb : belowClose sg = true)
    (hv : WFsub v) :
    WFsub (if tr.contains sg then tr else tr.set sg v) ∧
      (if tr.contains sg then tr else tr.set sg v).contains sg = true := by
  by_cases hc : tr.contains sg = true
  · simp only [hc, if_true]
    exact ⟨htr, trivial⟩
  · simp only [bool_eq_false_of_not hc, Bool.false_eq_true, if_false]
    exact ⟨wfsub_set tr sg v htr hsgb (ChildOK.opn hsg hv),
      (Tree.contains_set tr sg sg v).mpr (Or.inr rfl)⟩

theorem wfsub_ensure_flat (tr : Tree) (nd : String) (v : Tree)
    (htr : WFsub tr) (hnf : isOpenTok nd = false) (hnb : belowClose nd = true)
    (hv : NoBrack v) :
    WFsub (if tr.contains nd then tr else tr.set nd v) := by
  by_cases hc : tr.contains nd = true
  · simp only [hc, if_true]
    exact htr
  · simp only [bool_eq_false_of_not hc, Bool.false_eq_true, if_false]
    exact wfsub_set tr nd v htr hnb (ChildOK.flt hnf hv)

theorem placeIn_inv (tagS : String) : ∀ (dirs : List String)
    (smap nmap : List (String × String)) (tr : Tree) (pkgAcc base : String),
    WFsub tr →
    (∀ p ∈ smap, isOpenTok p.2 = true ∧ belowClose p.2 = true) →
    (∀ p ∈ nmap, isOpenTok p.2 = false ∧ belowClose p.2 = true) →
    WFsub (placeIn tagS smap nmap tr pkgAcc dirs base).1 ∧
    (∀ p ∈ (placeIn tagS smap nmap tr pkgAcc dirs base).2.1,
      isOpenTok p.2 = true ∧ belowClose p.2 = true) ∧
    (∀ p ∈ (placeIn tagS smap nmap tr pkgAcc dirs base).2.2.1,
      isOpenTok p.2 = false ∧ belowClose p.2 = true) ∧
    (∃ s, (placeIn tagS smap nmap tr pkgAcc dirs base).2.2.2.1 = tagS ++ ": " ++ s) ∧
    (isOpenTok (placeIn tagS smap nmap tr pkgAcc dirs base).2.2.2.2 = false ∧
      belowClose (placeIn tagS smap nmap tr pkgAcc dirs base).2.2.2.2 = true) := by
  intro dirs
  induction dirs with
  | nil =>
      intro smap nmap tr pkgAcc base htr hs hn
      simp only [placeIn]
      generalize (if pathJoin pkgAcc base = "." then tagS else pathJoin pkgAcc base) = P
      have hndp := ndLookup_inv nmap (tagS ++ ": " ++ P) P hn
      cases hnl : ndLookup nmap (tagS ++ ": " ++ P) P with
      | mk nd nmap2 =>
        rw [hnl] at hndp
        cases halk : alookup smap (tagS ++ ": " ++ P) with
        | some sg =>
            obtain ⟨q, hq, he⟩ := alookup_mem smap _ sg halk
            have hsg : isOpenTok sg = true := he ▸ (hs q hq).1
            have hsgb : belowClose sg = true := he ▸ (hs q hq).2
            have hens := wfsub_ensure tr sg closedSubg htr hsg hsgb wfsub_closedSubg
            have hinner : WFsub ((if tr.contains sg then tr else tr.set sg closedSubg).findD sg) :=
              wfsub_findD_open _ sg hens.1 hens.2 hsg
            refine ⟨?_, hs, hndp.2, ⟨P, rfl⟩, hndp.1⟩
            exact wfsub_set _ sg _ hens.1 hsgb
              (ChildOK.opn hsg
                (wfsub_ensure_flat _ nd closedNode hinner hndp.1.1 hndp.1.2 nobrack_closedNode))
        | none =>
            refine ⟨?_, hs, hndp.2, ⟨P, rfl⟩, hndp.1⟩
            exact wfsub_ensure_flat tr nd closedNode htr hndp.1.1 hndp.1.2 nobrack_closedNode
  | cons dir rest ih =>
      intro smap nmap tr pkgAcc base htr hs hn
      simp only [placeIn]
      generalize hPd : pathJoin pkgAcc dir = P
      have hmain : ∀ (sg : String) (smap2 : List (String × String)),
          isOpenTok sg = true → belowClose sg = true →
          (∀ p ∈ smap2, isOpenTok p.2 = true ∧ belowClose p.2 = true) →
          let tr1 := if tr.contains sg then tr else tr.set sg closedSubg
          let nd := nodetmpl (tagS ++ ": " ++ P) (color (tagS ++ ": " ++ P)) P
          let tr3 := match tr1.find? nd with
            | some n => (tr1.erase nd).set sg (((tr1.erase nd).findD sg).set nd n)
            | none => tr1
          WFsub (tr3.set sg (placeIn tagS smap2 nmap (tr3.findD sg) P rest base).1) ∧
          (∀ p ∈ (placeIn tagS smap2 nmap (tr3.findD sg) P rest base).2.1,
            isOpenTok p.2 = true ∧ belowClose p.2 = true) ∧
          (∀ p ∈ (placeIn tagS smap2 nmap (tr3.findD sg) P rest base).2.2.1,
            isOpenTok p.2 = false ∧ belowClose p.2 = true) ∧
          (∃ s, (placeIn tagS smap2 nmap (tr3.findD sg) P rest base).2.2.2.1
            = tagS ++ ": " ++ s) ∧
          (isOpenTok (placeIn tagS smap2 nmap (tr3.findD sg) P rest base).2.2.2.2 = false ∧
            belowClose (placeIn tagS smap2 nmap (tr3.findD sg) P rest base).2.2.2.2 = true) := by
        intro sg smap2 hsg hsgb hsmap2
        intro tr1 nd tr3
        have hndf : isOpenTok nd = false := isOpenTok_nodetmpl _ _ _
        have hndb : belowClose nd = true := belowClose_nodetmpl _ _ _
        have hndc : ¬ nd = closeSubg := ne_closeSubg_of_below nd hndb
        have hens := wfsub_ensure tr sg closedSubg htr hsg hsgb wfsub_closedSubg
        have htr1 : WFsub tr1 := hens.1
        have hc1 : tr1.contains sg = true := hens.2
        have hsgnd : ¬ sg = nd := by
          intro he
          have : isOpenTok nd = true := he ▸ hsg
          rw [hndf] at this
          cases this
        have h3 : WFsub tr3 ∧ tr3.contains sg = true := by
          show WFsub (match tr1.find? nd with
              | some n => (tr1.erase nd).set sg (((tr1.erase nd).findD sg).set nd n)
              | none => tr1) ∧
            (match tr1.find? nd with
              | some n => (tr1.erase nd).set sg (((tr1.erase nd).findD sg).set nd n)
              | none => tr1).contains sg = true
          cases hfind : tr1.find? nd with
          | some n =>
              have hnb : NoBrack n := nobrack_of_find_flat tr1 nd n htr1 hfind hndf hndc
              have htr2 : WFsub (tr1.erase nd) := wfsub_erase tr1 nd htr1 hndc
              have hc2 : (tr1.erase nd).contains sg = true := by
                rw [contains_erase_ne tr1 nd sg hsgnd]
                exact hc1
              have hinner0 : WFsub ((tr1.erase nd).findD sg) :=
                wfsub_findD_open _ sg htr2 hc2 hsg
              have hinner1 : WFsub (((tr1.erase nd).findD sg).set nd n) :=
                wfsub_set _ nd n hinner0 hndb (ChildOK.flt hndf hnb)
              exact ⟨wfsub_set _ sg _ htr2 hsgb (ChildOK.opn hsg hinner1),
                (Tree.contains_set _ sg sg _).mpr (Or.inr rfl)⟩
          | none => exact ⟨htr1, hc1⟩
        have hrec := ih smap2 nmap (tr3.findD sg) P base
          (wfsub_findD_open tr3 sg h3.1 h3.2 hsg) hsmap2 hn
        refine ⟨?_, hrec.2.1, hrec.2.2.1, hrec.2.2.2.1, hrec.2.2.2.2⟩
        exact wfsub_set tr3 sg _ h3.1 hsgb (ChildOK.opn hsg hrec.1)
      cases halk : alookup smap (tagS ++ ": " ++ P) with
      | some sg =>
          obtain ⟨q, hq, he⟩ := alookup_mem smap _ sg halk
          exact hmain sg smap (he ▸ (hs q hq).1) (he ▸ (hs q hq).2) hs
      | none =>
          refine hmain (sgStmt P) (smap ++ [(tagS ++ ": " ++ P, sgStmt P)])
            (isOpenTok_sgStmt P) (belowClose_sgStmt P) ?_
          intro p hp
          rcases List.mem_append.mp hp with h | h
          · exact hs p h
          · rw [List.mem_singleton] at h
            rw [h]
            exact ⟨isOpenTok_sgStmt P, belowClose_sgStmt P⟩

/-! ## C5: node placement preserves the state invariant -/

theorem goodLabel_of_data (s : String) (c : Char) (rest : List Char)
    (h : s.data = c :: rest) (hc : ¬ c = '\n') : goodLabel s = true := by
  simp [goodLabel, h, hc]

theorem goodLabel_key (a s : String) (ha : goodLabel a = true) :
    goodLabel (a ++ ": " ++ s) = true := by
  have hd : (a ++ ": " ++ s).data = a.data ++ (": ".data ++ s.data) := by
    simp [String.data_append]
  cases had : a.data with
  | nil =>
      refine goodLabel_of_data _ ':' (' ' :: s.data) ?_ (by decide)
      rw [hd, had]
      rfl
  | cons c rest =>
      have hc : ¬ c = '\n' := by
        simp only [goodLabel, had] at ha
        simpa using ha
      refine goodLabel_of_data _ c (rest ++ (": ".data ++ s.data)) ?_ hc
      rw [hd, had]
      rfl

theorem goodLabel_tagKey (cfg : Cfg) (hgm : goodLabel cfg.gomod = true) (tg : Tag)
    (s : String) : goodLabel (tagStr cfg tg ++ ": " ++ s) = true := by
  cases tg
  case standard => exact goodLabel_key "std" s (by decide)
  case imports => exact goodLabel_key "import" s (by decide)
  case vendored => exact goodLabel_key "vendor" s (by decide)
  case module => exact goodLabel_key cfg.gomod s hgm

theorem wfsub_findD_top (t : Tree) (k : String) (ht : TopWF t)
    (hc : t.contains k = true) : WFsub (t.findD k) := by
  cases hf : t.find? k with
  | none =>
      exfalso
      unfold Tree.contains at hc
      rw [hf] at hc
      cases hc
  | some v =>
      have hm := Tree.find?_mem t k v hf
      have hfd : t.findD k = v := by
        unfold Tree.findD
        rw [hf]
        rfl
      rw [hfd]
      obtain ⟨cs, _, hwf⟩ := ht
      exact hwf (k, v) hm

theorem placeAbs_inv (cfg : Cfg) (abs : String) (hgm : goodLabel cfg.gomod = true) :
    ∀ (dm : List (String × Tag)) (st : GState),
    (∀ e ∈ dm, e.2 = Tag.module → ¬ cfg.dirmod = cfg.dirstd) →
    SInv cfg st →
    SInv cfg (placeAbs cfg st abs dm).2 ∧
    (∀ s, (placeAbs cfg st abs dm).1.2.2 = some s →
      isOpenTok s = false ∧ belowClose s = true) ∧
    goodLabel (placeAbs cfg st abs dm).1.2.1 = true := by
  intro dm
  induction dm with
  | nil =>
      intro st _ hst
      refine ⟨hst, fun s hs => ?_, rfl⟩
      simp [placeAbs] at hs
  | cons e rest ih =>
      intro st hdm hst
      obtain ⟨pth, tg⟩ := e
      simp only [placeAbs]
      cases hsd : subdir pth abs with
      | none => exact ih st (fun e he => hdm e (List.mem_cons_of_mem _ he)) hst
      | some pkg =>
          dsimp only
          by_cases hskip : (subdir cfg.dirmod abs).isSome = true ∧ pth = cfg.dirimps
          · rw [if_pos hskip]
            exact ih st (fun e he => hdm e (List.mem_cons_of_mem _ he)) hst
          · rw [if_neg hskip]
            have hmod : tg = Tag.module → ¬ cfg.dirmod = cfg.dirstd :=
              fun h => hdm (pth, tg) (List.mem_cons_self _ _) h
            have hmain : ∀ (tg2 : Tag) (pkg2 : String),
                (tg2 = Tag.module → ¬ cfg.dirmod = cfg.dirstd) →
                SInv cfg { st with
                    nodes := st.nodes.set (graphStmt cfg tg2)
                      (placeIn (tagStr cfg tg2) st.subgmap st.nodemap
                        (st.nodes.findD (graphStmt cfg tg2)) "" (dirsOf pkg2)
                        (pathBase pkg2)).1,
                    subgmap := (placeIn (tagStr cfg tg2) st.subgmap st.nodemap
                        (st.nodes.findD (graphStmt cfg tg2)) "" (dirsOf pkg2)
                        (pathBase pkg2)).2.1,
                    nodemap := (placeIn (tagStr cfg tg2) st.subgmap st.nodemap
                        (st.nodes.findD (graphStmt cfg tg2)) "" (dirsOf pkg2)
                        (pathBase pkg2)).2.2.1 } ∧
                (∀ s, some (placeIn (tagStr cfg tg2) st.subgmap st.nodemap
                    (st.nodes.findD (graphStmt cfg tg2)) "" (dirsOf pkg2)
                    (pathBase pkg2)).2.2.2.2 = some s →
                  isOpenTok s = false ∧ belowClose s = true) ∧
                goodLabel (placeIn (tagStr cfg tg2) st.subgmap st.nodemap
                    (st.nodes.findD (graphStmt cfg tg2)) "" (dirsOf pkg2)
                    (pathBase pkg2)).2.2.2.1 = true := by
              intro tg2 pkg2 hmod2
              obtain ⟨htop, hc1, hc2, hc3, hc4, hsm, hnm⟩ := hst
              have hgr : st.nodes.contains (graphStmt cfg tg2) = true := by
                cases tg2
                case standard => exact hc1
                case imports => exact hc2
                case vendored => exact hc3
                case module => exact hc4 (hmod2 rfl)
              have htr0 : WFsub (st.nodes.findD (graphStmt cfg tg2)) :=
                wfsub_findD_top st.nodes _ htop hgr
              have hpi := placeIn_inv (tagStr cfg tg2) (dirsOf pkg2) st.subgmap st.nodemap
                (st.nodes.findD (graphStmt cfg tg2)) "" (pathBase pkg2) htr0 hsm hnm
              refine ⟨⟨?_, ?_, ?_, ?_, ?_, hpi.2.1, hpi.2.2.1⟩, ?_, ?_⟩
              · exact topwf_set st.nodes _ _ htop (isOpenTok_graphStmt cfg tg2) hpi.1
              · exact (Tree.contains_set _ _ _ _).mpr (Or.inl hc1)
              · exact (Tree.contains_set _ _ _ _).mpr (Or.inl hc2)
              · exact (Tree.contains_set _ _ _ _).mpr (Or.inl hc3)
              · intro hne
                exact (Tree.contains_set _ _ _ _).mpr (Or.inl (hc4 hne))
              · intro s hs
                simp only [Option.some.injEq] at hs
                exact hs ▸ hpi.2.2.2.2
              · obtain ⟨w, hw⟩ := hpi.2.2.2.1
                rw [hw]
                exact goodLabel_tagKey cfg hgm tg2 w
            cases hcut : cutAfter abs "/vendor/" with
            | some a =>
                dsimp only
                exact hmain Tag.vendored a (fun h => Tag.noConfusion h)
            | none =>
                dsimp only
                exact hmain tg pkg hmod

/-! ## C5: reference processing preserves the state invariant -/

theorem refStep_inv (cfg : Cfg) (dm : List (String × Tag)) (hgm : goodLabel cfg.gomod = true)
    (hdm : ∀ e ∈ dm, e.2 = Tag.module → ¬ cfg.dirmod = cfg.dirstd)
    (st : GState) (r : Nat) (rnode : String) (rnd : Option String) (dabs : String)
    (hst : SInv cfg st) (hrn : goodLabel rnode = true)
    (hrd : ∀ s, rnd = some s → isOpenTok s = false ∧ belowClose s = true) :
    SInv cfg (refStep cfg dm st r rnode rnd dabs) := by
  have hpl := placeAbs_inv cfg dabs hgm dm st hdm hst
  simp only [refStep]
  by_cases hguard : (placeAbs cfg st dabs dm).1.2.1 = rnode ∨
      (¬ cfg.dirmod = cfg.dirstd ∧ ¬ (placeAbs cfg st dabs dm).1.1 = 2 ∧ ¬ r = 2)
  · rw [if_pos hguard]
    exact hpl.1
  · rw [if_neg hguard]
    obtain ⟨htop, hc1, hc2, hc3, hc4, hsm, hnm⟩ := hpl.1
    have hdn : goodLabel (placeAbs cfg st dabs dm).1.2.1 = true := hpl.2.2
    have hdd := hpl.2.1
    have t1 := tooltip_top (placeAbs cfg st dabs dm).2.nodes rnd rnode htop hrd hrn
    have t2 := tooltip_top _ rnd (placeAbs cfg st dabs dm).1.2.1 t1.1 hrd hdn
    have t3 := tooltip_top _ (placeAbs cfg st dabs dm).1.2.2 rnode t2.1 hdd hrn
    have t4 := tooltip_top _ (placeAbs cfg st dabs dm).1.2.2
      (placeAbs cfg st dabs dm).1.2.1 t3.1 hdd hdn
    have hkeys :
        (tooltip (tooltip (tooltip (tooltip (placeAbs cfg st dabs dm).2.nodes rnd
            (tooltipKey rnode)) rnd (tooltipKey (placeAbs cfg st dabs dm).1.2.1))
            (placeAbs cfg st dabs dm).1.2.2 (tooltipKey rnode))
            (placeAbs cfg st dabs dm).1.2.2
            (tooltipKey (placeAbs cfg st dabs dm).1.2.1)).keys
          = (placeAbs cfg st dabs dm).2.nodes.keys := by
      rw [t4.2, t3.2, t2.2, t1.2]
    refine ⟨t4.1, ?_, ?_, ?_, ?_, hsm, hnm⟩
    · rw [contains_of_keys_eq _ _ hkeys]
      exact hc1
    · rw [contains_of_keys_eq _ _ hkeys]
      exact hc2
    · rw [contains_of_keys_eq _ _ hkeys]
      exact hc3
    · intro hne
      rw [contains_of_keys_eq _ _ hkeys]
      exact hc4 hne

theorem refEntry_inv (cfg : Cfg) (dm : List (String × Tag))
    (hgm : goodLabel cfg.gomod = true)
    (hdm : ∀ e ∈ dm, e.2 = Tag.module → ¬ cfg.dirmod = cfg.dirstd)
    (st : GState) (rabs : String) (dabss : List String) (hst : SInv cfg st) :
    SInv cfg (refEntry cfg dm st rabs dabss) := by
  have hpl := placeAbs_inv cfg rabs hgm dm st hdm hst
  simp only [refEntry]
  have aux : ∀ (l : List String) (st0 : GState), SInv cfg st0 →
      SInv cfg (l.foldl (fun st1 dabs => refStep cfg dm st1 (placeAbs cfg st rabs dm).1.1
        (placeAbs cfg st rabs dm).1.2.1 (placeAbs cfg st rabs dm).1.2.2 dabs) st0) := by
    intro l
    induction l with
    | nil => intro st0 h0; exact h0
    | cons d rest ih =>
        intro st0 h0
        exact ih _ (refStep_inv cfg dm hgm hdm st0 _ _ _ d h0 hpl.2.2 hpl.2.1)
  exact aux dabss _ hpl.1

theorem initState_inv (cfg : Cfg) : SInv cfg (initState cfg) := by
  have hks : (Tree.node
      [(graphStmt cfg .standard, closedSubg),
       (graphStmt cfg .imports, closedSubg),
       (graphStmt cfg .vendored, closedSubg)]).keys
      = [graphStmt cfg .standard, graphStmt cfg .imports, graphStmt cfg .vendored] := rfl
  have htop : TopWF (Tree.node
      [(graphStmt cfg .standard, closedSubg),
       (graphStmt cfg .imports, closedSubg),
       (graphStmt cfg .vendored, closedSubg)]) := by
    refine TopWF.mk _ ?_ ?_ <;> intro p hp <;>
      rcases List.mem_cons.mp hp with h | hp' <;>
        first
          | (rw [h]; first | exact isOpenTok_graphStmt cfg _ | exact wfsub_closedSubg)
          | (rcases List.mem_cons.mp hp' with h | hp'' <;>
              first
                | (rw [h]; first | exact isOpenTok_graphStmt cfg _ | exact wfsub_closedSubg)
                | (rw [List.mem_singleton] at hp''; rw [hp'']
                   first | exact isOpenTok_graphStmt cfg _ | exact wfsub_closedSubg))
  have hcon : ∀ tg, tg = Tag.standard ∨ tg = Tag.imports ∨ tg = Tag.vendored →
      (Tree.node
        [(graphStmt cfg .standard, closedSubg),
         (graphStmt cfg .imports, closedSubg),
         (graphStmt cfg .vendored, closedSubg)]).contains (graphStmt cfg tg) = true := by
    intro tg htg
    refine (Tree.contains_iff_mem_keys _ _).mpr ?_
    rw [hks]
    rcases htg with h | h | h <;> rw [h] <;> simp
  simp only [initState]
  by_cases hcond : cfg.dirmod = cfg.dirstd
  · rw [if_pos hcond]
    exact ⟨htop, hcon _ (Or.inl rfl), hcon _ (Or.inr (Or.inl rfl)),
      hcon _ (Or.inr (Or.inr rfl)), fun hne => absurd hcond hne,
      fun p hp => absurd hp (List.not_mem_nil p), fun p hp => absurd hp (List.not_mem_nil p)⟩
  · rw [if_neg hcond]
    refine ⟨topwf_set _ _ _ htop (isOpenTok_graphStmt cfg _) wfsub_closedSubg,
      (Tree.contains_set _ _ _ _).mpr (Or.inl (hcon _ (Or.inl rfl))),
      (Tree.contains_set _ _ _ _).mpr (Or.inl (hcon _ (Or.inr (Or.inl rfl)))),
      (Tree.contains_set _ _ _ _).mpr (Or.inl (hcon _ (Or.inr (Or.inr rfl)))),
      fun _ => (Tree.contains_set _ _ _ _).mpr (Or.inr rfl),
      fun p hp => absurd hp (List.not_mem_nil p), fun p hp => absurd hp (List.not_mem_nil p)⟩

theorem buildState_inv (cfg : Cfg) (dm : List (String × Tag))
    (hgm : goodLabel cfg.gomod = true)
    (hdm : ∀ e ∈ dm, e.2 = Tag.module → ¬ cfg.dirmod = cfg.dirstd)
    (references : List (String × List (String × List String))) :
    SInv cfg (buildState cfg dm references) := by
  unfold buildState
  have inner : ∀ (l : List (String × List String)) (st0 : GState), SInv cfg st0 →
      SInv cfg (l.foldl (fun st q => refEntry cfg dm st q.1 q.2) st0) := by
    intro l
    induction l with
    | nil => intro st0 h0; exact h0
    | cons q rest ih =>
        intro st0 h0
        exact ih _ (refEntry_inv cfg dm hgm hdm st0 q.1 q.2 h0)
  have outer : ∀ (l : List (String × List (String × List String))) (st0 : GState),
      SInv cfg st0 →
      SInv cfg (l.foldl
        (fun st p => p.2.foldl (fun st q => refEntry cfg dm st q.1 q.2) st) st0) := by
    intro l
    induction l with
    | nil => intro st0 h0; exact h0
    | cons p rest ih =>
        intro st0 h0
        exact ih _ (inner p.2 st0 h0)
  exact outer references _ (initState_inv cfg)

/-! ## C5: well-formed trees emit matched bracket sequences -/

theorem nobrack_emit : ∀ n, ∀ t : Tree, t.tsize ≤ n → NoBrack t →
    ∀ k ∈ emit t, isOpenTok k = false ∧ ¬ k = closeSubg := by
  intro n
  induction n using Nat.strong_induction_on with
  | _ n ih =>
    intro t ht hnb k hk
    obtain ⟨cs⟩ := t
    have hts : tsizeL cs + 1 ≤ n := ht
    obtain ⟨_, h1, h2, h3⟩ := hnb
    rw [emit_eq] at hk
    rcases List.mem_flatMap.mp hk with ⟨p, hp, hkp⟩
    have hpc : p ∈ cs := mem_sortAssoc cs p hp
    rcases List.mem_cons.mp hkp with h | h
    · exact ⟨h ▸ h1 p hpc, h ▸ h2 p hpc⟩
    · exact ih (tsizeL cs) (by omega) p.2 (tsizeL_mem cs p hpc) (h3 p hpc) k h

theorem matched_append_flat : ∀ (l rest : List String),
    (∀ k ∈ l, isOpenTok k = false ∧ ¬ k = closeSubg) → Matched rest →
    Matched (l ++ rest) := by
  intro l
  induction l with
  | nil => intro rest _ h; exact h
  | cons k l' ihl =>
      intro rest hl hr
      have hk := hl k (List.mem_cons_self _ _)
      exact Matched.flat hk.1 hk.2 (ihl rest (fun q hq => hl q (List.mem_cons_of_mem _ hq)) hr)

theorem wfsub_emit : ∀ n, ∀ t : Tree, t.tsize ≤ n → WFsub t →
    ∃ body, emit t = body ++ [closeSubg] ∧ Matched body := by
  intro n
  induction n using Nat.strong_induction_on with
  | _ n ih =>
    intro t ht hwf
    obtain ⟨cs⟩ := t
    have hts : tsizeL cs + 1 ≤ n := ht
    obtain ⟨_, hcnt, hval, hbel, hch⟩ := hwf
    obtain ⟨front, hfr, hfp⟩ := sortAssoc_close_last cs hcnt hval hbel
    rw [emit_eq, show (Tree.node cs).children = cs from rfl, hfr, List.flatMap_append]
    refine ⟨front.flatMap (fun p => p.1 :: emit p.2), ?_, ?_⟩
    · rfl
    · have haux : ∀ fr : List (String × Tree), (∀ p ∈ fr, p ∈ cs ∧ ¬ p.1 = closeSubg) →
          Matched (fr.flatMap (fun p => p.1 :: emit p.2)) := by
        intro fr
        induction fr with
        | nil => intro _; exact Matched.nil
        | cons p fr' ihf =>
            intro hmem
            have hp := hmem p (List.mem_cons_self _ _)
            have hrest := ihf (fun q hq => hmem q (List.mem_cons_of_mem _ hq))
            rw [List.flatMap_cons]
            have hok := hch p hp.1 hp.2
            cases hok with
            | opn hop hw =>
                obtain ⟨body, hbody, hmb⟩ := ih (tsizeL cs) (by omega) p.2
                  (tsizeL_mem cs p hp.1) hw
                rw [hbody, show (p.1 :: (body ++ [closeSubg]))
                    ++ fr'.flatMap (fun p => p.1 :: emit p.2)
                    = p.1 :: (body ++ closeSubg
                      :: fr'.flatMap (fun p => p.1 :: emit p.2)) from by simp]
                exact Matched.node hop hmb hrest
            | flt hfl hnb =>
                refine matched_append_flat (p.1 :: emit p.2) _ ?_ hrest
                intro q hq
                rcases List.mem_cons.mp hq with h | h
                · exact ⟨h ▸ hfl, h ▸ hp.2⟩
                · exact nobrack_emit (tsizeL cs) p.2 (tsizeL_mem cs p hp.1) hnb q h
      exact haux front hfp

theorem topwf_emit (t : Tree) (ht : TopWF t) : Matched (emit t) := by
  obtain ⟨cs, hop, hwf⟩ := ht
  rw [emit_eq]
  have haux : ∀ l : List (String × Tree), (∀ p ∈ l, p ∈ cs) →
      Matched (l.flatMap (fun p => p.1 :: emit p.2)) := by
    intro l
    induction l with
    | nil => intro _; exact Matched.nil
    | cons p l' ihl =>
        intro hmem
        have hp := hmem p (List.mem_cons_self _ _)
        have hrest := ihl (fun q hq => hmem q (List.mem_cons_of_mem _ hq))
        rw [List.flatMap_cons]
        obtain ⟨body, hbody, hmb⟩ := wfsub_emit p.2.tsize p.2 (le_refl _) (hwf p hp)
        rw [hbody, show (p.1 :: (body ++ [closeSubg]))
            ++ l'.flatMap (fun p => p.1 :: emit p.2)
            = p.1 :: (body ++ closeSubg
              :: l'.flatMap (fun p => p.1 :: emit p.2)) from by simp]
        exact Matched.node (hop p hp) hmb hrest
  exact haux (sortAssoc ((Tree.node cs).children)) (fun p hp => mem_sortAssoc cs p hp)

/-- C5: in the node/cluster section of the text returned by `nodegraph`
(the statement sequence traversed from the builder's node tree, whose
first-byte-trimmed concatenation `nodegraph` emits between the header
and the edge section), subgraph-opening statements and close sentinels
form a properly matched bracket sequence: every cluster's close appears
after its opening statement and before its parent's close, the number
of opens equals the number of closes, and a left-to-right scan never
sees more closes than opens.  Hypotheses: a `dirmap` iteration carries
the module tag only when the module root differs from GOROOT (otherwise
the Go program writes to a nil map and panics, recovering to an empty
result), and the module path does not begin with a newline. -/
theorem C5_bracket_balance (cfg : Cfg) (dm : List (String × Tag)) (now : String)
    (references : List (String × List (String × List String)))
    (hdm : ∀ e ∈ dm, e.2 = Tag.module → ¬ cfg.dirmod = cfg.dirstd)
    (hgm : goodLabel cfg.gomod = true) :
    Matched (nodeTokens cfg dm references) ∧
    opensIn (nodeTokens cfg dm references) = closesIn (nodeTokens cfg dm references) ∧
    (∀ i, closesIn ((nodeTokens cfg dm references).take i)
      ≤ opensIn ((nodeTokens cfg dm references).take i)) ∧
    nodegraph cfg dm now references
      = header cfg now ++ nodesText (buildState cfg dm references).nodes
        ++ edgesText (buildState cfg dm references).edges ++ "\n\x7d\n" := by
  have hm : Matched (nodeTokens cfg dm references) :=
    topwf_emit _ (buildState_inv cfg dm hgm hdm references).1
  exact ⟨hm, matched_opens_eq hm, matched_prefix hm, rfl⟩

/-- Witness: the bracket-balance theorem applied at a concrete
configuration, module map, and reference set. -/
theorem C5_bracket_balance_witness :
    goodLabel "m" = true ∧
    Matched (nodeTokens ⟨"/go/src", "/gp/pkg/mod", "/mod", "m"⟩
      [("/go/src", Tag.standard), ("/mod", Tag.module)]
      [("io.Writer", [("/mod/cmd", ["/go/src/io"])])]) := by
  refine ⟨rfl, ?_⟩
  exact (C5_bracket_balance ⟨"/go/src", "/gp/pkg/mod", "/mod", "m"⟩
    [("/go/src", Tag.standard), ("/mod", Tag.module)] "now"
    [("io.Writer", [("/mod/cmd", ["/go/src/io"])])]
    (fun e he hm => by
      rcases List.mem_cons.mp he with h | h
      · rw [h] at hm
        exact Tag.noConfusion hm
      · decide)
    rfl).1

/-! ## C1: canonical rendering and the embedded timestamp -/

theorem keys_filter_comm (cs : List (String × Tree)) :
    (cs.filter (fun p => !(p.1 == ""))).map Prod.fst
      = (cs.map Prod.fst).filter (fun k => !(k == "")) := by
  induction cs with
  | nil => rfl
  | cons x rest ih =>
      cases hx : (x.1 == "") with
      | true => simp [List.filter_cons, hx, ih]
      | false => simp [List.filter_cons, hx, ih]

theorem sortAssoc_keys_sorted (cs : List (String × Tree)) :
    List.Sorted canonOrd ((sortAssoc cs).map Prod.fst) :=
  List.Pairwise.map Prod.fst (fun _ _ h => h) (sortAssoc_sorted cs)

theorem sortAssoc_keys_perm (cs : List (String × Tree)) :
    ((sortAssoc cs).map Prod.fst).Perm
      ((cs.map Prod.fst).filter (fun k => !(k == ""))) := by
  have h1 : (sortAssoc cs).Perm (cs.filter (fun p => !(p.1 == ""))) :=
    List.perm_insertionSort _ _
  have h2 := h1.map Prod.fst
  rw [keys_filter_comm] at h2
  exact h2

theorem treeEquiv_emit : ∀ n, ∀ t t' : Tree, t.tsize ≤ n → TreeEquiv t t' →
    emit t = emit t' := by
  intro n
  induction n using Nat.strong_induction_on with
  | _ n ih =>
    intro t t' ht heq
    obtain ⟨cs, cs', hnd, hnd', hperm, hrec⟩ := heq
    have hts : tsizeL cs + 1 ≤ n := ht
    have hkeys : (sortAssoc cs).map Prod.fst = (sortAssoc cs').map Prod.fst := by
      refine List.eq_of_perm_of_sorted ?_ (sortAssoc_keys_sorted cs) (sortAssoc_keys_sorted cs')
      exact (sortAssoc_keys_perm cs).trans
        ((hperm.filter _).trans (sortAssoc_keys_perm cs').symm)
    have haux : ∀ (l l' : List (String × Tree)),
        l.map Prod.fst = l'.map Prod.fst →
        (∀ p ∈ l, p ∈ cs) → (∀ q ∈ l', q ∈ cs') →
        l.flatMap (fun p => p.1 :: emit p.2) = l'.flatMap (fun p => p.1 :: emit p.2) := by
      intro l
      induction l with
      | nil =>
          intro l' hk _ _
          have : l' = [] := by
            cases l' with
            | nil => rfl
            | cons q l0 => simp at hk
          rw [this]
      | cons p l0 ihl =>
          intro l' hk hml hmr
          cases l' with
          | nil => simp at hk
          | cons q l0' =>
              simp only [List.map_cons, List.cons.injEq] at hk
              have hpq : TreeEquiv p.2 q.2 := by
                have hp : (p.1, p.2) ∈ cs := hml p (List.mem_cons_self _ _)
                have hq : (p.1, q.2) ∈ cs' := by
                  have := hmr q (List.mem_cons_self _ _)
                  rw [show ((p.1, q.2) : String × Tree) = q from by rw [hk.1]] at *
                  exact hmr q (List.mem_cons_self _ _)
                exact hrec p.1 p.2 q.2 hp hq
              have hsz : p.2.tsize ≤ tsizeL cs := tsizeL_mem cs p (hml p (List.mem_cons_self _ _))
              have hemit : emit p.2 = emit q.2 := ih (tsizeL cs) (by omega) p.2 q.2 hsz hpq
              simp only [List.flatMap_cons]
              rw [hk.1, hemit,
                ihl l0' hk.2 (fun r hr => hml r (List.mem_cons_of_mem _ hr))
                  (fun r hr => hmr r (List.mem_cons_of_mem _ hr))]
    rw [emit_eq, emit_eq]
    exact haux (sortAssoc cs) (sortAssoc cs') hkeys
      (fun p hp => mem_sortAssoc cs p hp) (fun q hq => mem_sortAssoc cs' q hq)

theorem treeEquiv_nodesText (t t' : Tree) (h : TreeEquiv t t') :
    nodesText t = nodesText t' := by
  unfold nodesText
  rw [treeEquiv_emit t.tsize t t' (le_refl _) h]

theorem nodegraph_now_inj (cfg : Cfg) (dm : List (String × Tag))
    (references : List (String × List (String × List String))) (now now' : String)
    (h : nodegraph cfg dm now references = nodegraph cfg dm now' references) :
    now = now' := by
  have hd := congrArg String.data h
  simp only [nodegraph, header, String.data_append, List.append_assoc] at hd
  refine String.ext ?_
  exact List.append_cancel_right
    (List.append_cancel_left (List.append_cancel_left (List.append_cancel_left hd)))

/-- C1 counterexample: on identical input (same configuration, same
dirmap iteration, same references), two runs whose formatted local times
differ produce different graph-description text — `nodegraph`
interpolates `time.Now()` into the graph label (nodegraph.go line 163),
so the output is not a function of the program input alone. -/
theorem C1_counterexample :
    ¬ nodegraph ⟨"/go/src", "/gp", "/mod", "m"⟩ [("/go/src", Tag.standard)] "12:00" []
      = nodegraph ⟨"/go/src", "/gp", "/mod", "m"⟩ [("/go/src", Tag.standard)] "12:01" [] := by
  intro h
  have := nodegraph_now_inj _ _ _ _ _ h
  exact absurd this (by decide)

/-- C1 (amended): nodegraph output is deterministic only relative to the
run time and the chosen map-iteration orders: (i) the formatted run time
is embedded in (and recoverable from) the output, so two runs over
identical input produce byte-identical text exactly when their formatted
times coincide; (ii) the rendering itself is canonical — node trees that
agree up to reordering of sibling insertions (duplicate-free keys per
level, matching subtrees per key) yield identical node-section text,
the design that shields the output from map-iteration nondeterminism at
every traversal. -/
theorem C1_determinism_amended :
    (∀ (cfg : Cfg) (dm : List (String × Tag))
      (references : List (String × List (String × List String))) (now now' : String),
      nodegraph cfg dm now references = nodegraph cfg dm now' references → now = now') ∧
    (∀ t t' : Tree, TreeEquiv t t' → nodesText t = nodesText t') :=
  ⟨nodegraph_now_inj, treeEquiv_nodesText⟩

/-- Witness: the amended determinism theorem applied at concrete inputs
(a reflexive run-time equation, and two sibling orders of one level). -/
theorem C1_determinism_amended_witness :
    ("12:00" : String) = "12:00" ∧
    nodesText (Tree.node [("a", Tree.empty), ("b", Tree.empty)])
      = nodesText (Tree.node [("b", Tree.empty), ("a", Tree.empty)]) := by
  have hemp : TreeEquiv Tree.empty Tree.empty :=
    TreeEquiv.mk [] [] List.nodup_nil List.nodup_nil (List.Perm.refl _)
      (fun k v v' hv _ => absurd hv (List.not_mem_nil _))
  refine ⟨C1_determinism_amended.1 ⟨"/go/src", "/gp", "/mod", "m"⟩
      [("/go/src", Tag.standard)] [] "12:00" "12:00" rfl,
    C1_determinism_amended.2 _ _ (TreeEquiv.mk
      [("a", Tree.empty), ("b", Tree.empty)] [("b", Tree.empty), ("a", Tree.empty)]
      (by decide) (by decide) (by decide) ?_)⟩
  intro k v v' hv hv'
  have hv2 : v = Tree.empty := by
    rcases List.mem_cons.mp hv with h | h
    · exact congrArg Prod.snd h
    · rw [List.mem_singleton] at h
      exact congrArg Prod.snd h
  have hv'2 : v' = Tree.empty := by
    rcases List.mem_cons.mp hv' with h | h
    · exact congrArg Prod.snd h
    · rw [List.mem_singleton] at h
      exact congrArg Prod.snd h
  rw [hv2, hv'2]
  exact hemp

end Godep
